import Mathlib

/-!
Verification of the screen-mirror streaming data plane.

This file gives a shallow embedding of the Rust sources under `src/` and
proves (or refutes) the specification claims about them:

* `src/network/protocol.rs` — wire codec (`Packet::to_bytes` / `Packet::from_bytes`,
  `PacketType::try_from`, `FecPacket`);
* `src/network/fec.rs` — Reed–Solomon FEC encoder/decoder
  (`FecEncoder::encode`, `FecDecoder::add_data_packet` / `add_fec_packet` /
  `try_recover`);
* `src/network/quic.rs` — datagram-transport loss accounting
  (`QuicConnection::recv` / `update_stats`);
* `src/network/tcp.rs` — stream-transport framing (`TcpConnection::read_packet`);
* `src/network/mod.rs` — `NetworkStats::quality_score`;
* `src/sync/mod.rs` — A/V sync engine (`SyncEngine`);
* `src/control/bitrate.rs` — AIMD bitrate controller (`BitrateController`).

Modelling conventions:
* bytes are `Nat` values (< 256 where produced by the code); byte buffers are
  `List Nat`;
* Rust `u8`/`u32`/`u64` arithmetic is `Nat` arithmetic with explicit `% 2^w`
  at the operations where the source can overflow (release-mode wrapping
  semantics); `i64` is `Int` with two's-complement encode/decode;
* Rust `f64` fields and arithmetic (`packet_loss`, `quality_score`,
  bitrate factors) are modelled as exact rationals `ℚ`; every constant that
  appears in the source (`0.75`, `0.6`, …) is exactly representable in
  binary floating point or used only in claims stated over real arithmetic;
* `Instant` timestamps are `Nat` milliseconds supplied explicitly;
* the external crate `reed_solomon_erasure::galois_8::ReedSolomon` is not
  part of this repository; it is embedded as an explicit codec parameter
  (`RSCodec`) together with `RSSpec`, the systematic-MDS contract the crate
  documents (any `k` of the `k+r` shards determine the block).
-/

namespace ScreenMirror

/-! ## Byte-level helpers (little/big endian integer coding) -/

/-- Little-endian encoding of `v` into `n` bytes (`v.to_le_bytes`, truncating
modulo `2^(8n)` as the Rust fixed-width cast does). -/
def natToLe : Nat → Nat → List Nat
  | 0, _ => []
  | n + 1, v => v % 256 :: natToLe n (v / 256)

/-- Little-endian decoding of a byte list (`from_le_bytes`). -/
def leToNat : List Nat → Nat
  | [] => 0
  | b :: bs => b + 256 * leToNat bs

/-- Big-endian decoding of a byte list (`from_be_bytes`). -/
def beToNat (l : List Nat) : Nat :=
  l.foldl (fun acc b => acc * 256 + b) 0

theorem natToLe_length (n v : Nat) : (natToLe n v).length = n := by
  induction n generalizing v with
  | zero => rfl
  | succ n ih => simp [natToLe, ih]

theorem leToNat_natToLe (n v : Nat) : leToNat (natToLe n v) = v % 256 ^ n := by
  induction n generalizing v with
  | zero => simp [natToLe, leToNat, Nat.mod_one]
  | succ n ih =>
      simp only [natToLe, leToNat, ih]
      rw [pow_succ', Nat.mod_mul]

/-- Two's-complement little-endian encoding of an `i64` (`i64::to_le_bytes`). -/
def i64ToLe (x : Int) : List Nat :=
  natToLe 8 (x % (2 : Int) ^ 64).toNat

/-- Decoding 8 little-endian bytes as an `i64` (`i64::from_le_bytes`). -/
def leToI64 (l : List Nat) : Int :=
  let n := leToNat l
  if n < 2 ^ 63 then (n : Int) else (n : Int) - 2 ^ 64

theorem i64ToLe_length (x : Int) : (i64ToLe x).length = 8 :=
  natToLe_length 8 _

theorem leToI64_i64ToLe (x : Int) (h1 : -(2 ^ 63) ≤ x) (h2 : x < 2 ^ 63) :
    leToI64 (i64ToLe x) = x := by
  have e64 : (2 : Int) ^ 64 = 18446744073709551616 := by norm_num
  have n64 : (256 : Nat) ^ 8 = 18446744073709551616 := by norm_num
  have n63 : (2 : Nat) ^ 63 = 9223372036854775808 := by norm_num
  have e63 : (2 : Int) ^ 63 = 9223372036854775808 := by norm_num
  simp only [leToI64, i64ToLe, leToNat_natToLe, e64, n64, n63, e63] at *
  split <;> omega

/-! ## Wire codec: `src/network/protocol.rs` -/

/-- `PacketType` (protocol.rs lines 5–22). -/
inductive PacketType where
  | Video
  | Audio
  | Control
  | Fec
  | Handshake
deriving DecidableEq, Repr

/-- The `#[repr(u8)]` discriminant of a `PacketType`. -/
def PacketType.toByte : PacketType → Nat
  | .Video => 1
  | .Audio => 2
  | .Control => 3
  | .Fec => 4
  | .Handshake => 5

/-- `PacketType::try_from` (protocol.rs lines 24–37). -/
def PacketType.tryFrom (v : Nat) : Option PacketType :=
  if v = 1 then some .Video
  else if v = 2 then some .Audio
  else if v = 3 then some .Control
  else if v = 4 then some .Fec
  else if v = 5 then some .Handshake
  else none

/-- `Packet` (protocol.rs lines 40–53).  `pts` is an `i64`, `seq` a `u32`. -/
structure Packet where
  packet_type : PacketType
  pts : Int
  seq : Nat
  data : List Nat
deriving DecidableEq, Repr

instance : Inhabited Packet := ⟨⟨.Video, 0, 0, []⟩⟩

/-- `Packet::HEADER_SIZE` (protocol.rs line 57). -/
def Packet.HEADER_SIZE : Nat := 17

/-- `Packet::to_bytes` (protocol.rs lines 70–83):
`type(1) | pts i64 LE (8) | seq u32 LE (4) | len u32 LE (4) | payload`. -/
def Packet.toBytes (p : Packet) : List Nat :=
  p.packet_type.toByte :: (i64ToLe p.pts ++ natToLe 4 p.seq ++ natToLe 4 p.data.length ++ p.data)

/-- `Packet::from_bytes` (protocol.rs lines 86–105).  The `Bytes` cursor is
modelled with `take`/`drop`. -/
def Packet.fromBytes (buf : List Nat) : Except String Packet :=
  if buf.length < Packet.HEADER_SIZE then .error "Packet too short"
  else
    match PacketType.tryFrom (buf.getD 0 0) with
    | none => .error "Invalid packet type"
    | some ty =>
        let r1 := buf.drop 1
        let pts := leToI64 (r1.take 8)
        let r2 := r1.drop 8
        let seq := leToNat (r2.take 4)
        let r3 := r2.drop 4
        let len := leToNat (r3.take 4)
        let r4 := r3.drop 4
        if r4.length < len then .error "Incomplete packet"
        else .ok ⟨ty, pts, seq, r4.take len⟩

/-- Range invariants the Rust `Packet` field types impose: `pts : i64`,
`seq : u32`, `data.len() : usize` representable as `u32` on the wire. -/
def Packet.Wf (p : Packet) : Prop :=
  -(2 ^ 63) ≤ p.pts ∧ p.pts < 2 ^ 63 ∧ p.seq < 2 ^ 32 ∧ p.data.length < 2 ^ 32

instance (p : Packet) : Decidable p.Wf := by
  unfold Packet.Wf; infer_instance

theorem PacketType.tryFrom_toByte (t : PacketType) : PacketType.tryFrom t.toByte = some t := by
  cases t <;> rfl

theorem Packet.toBytes_length (p : Packet) :
    p.toBytes.length = Packet.HEADER_SIZE + p.data.length := by
  simp only [Packet.toBytes, Packet.HEADER_SIZE, List.length_cons, List.length_append,
    i64ToLe_length, natToLe_length]
  omega

/-- Parsing a serialized packet followed by arbitrary trailing bytes succeeds
and ignores the trailer (the FEC decoder relies on this: recovered shards are
zero-padded). -/
theorem Packet.fromBytes_toBytes_append (p : Packet) (tail : List Nat) (hw : p.Wf) :
    Packet.fromBytes (p.toBytes ++ tail) = .ok p := by
  obtain ⟨h1, h2, h3, h4⟩ := hw
  have hpts8 : (i64ToLe p.pts).length = 8 := i64ToLe_length _
  have hseq4 : (natToLe 4 p.seq).length = 4 := natToLe_length 4 _
  have hlen4 : (natToLe 4 p.data.length).length = 4 := natToLe_length 4 _
  have hlen : (p.toBytes ++ tail).length = 17 + p.data.length + tail.length := by
    simp only [List.length_append, Packet.toBytes_length, Packet.HEADER_SIZE]
    try omega
  have h17 : Packet.HEADER_SIZE = 17 := rfl
  have hnotshort : ¬ (p.toBytes ++ tail).length < Packet.HEADER_SIZE := by
    rw [hlen, h17]; omega
  have hhead : (p.toBytes ++ tail).getD 0 0 = p.packet_type.toByte := by
    simp [Packet.toBytes]
  have hdrop1 : (p.toBytes ++ tail).drop 1 =
      i64ToLe p.pts ++ (natToLe 4 p.seq ++ (natToLe 4 p.data.length ++ (p.data ++ tail))) := by
    simp [Packet.toBytes]
  unfold Packet.fromBytes
  rw [if_neg hnotshort]
  simp only [hhead, PacketType.tryFrom_toByte, hdrop1]
  rw [List.take_left' hpts8, List.drop_left' hpts8]
  rw [List.take_left' hseq4, List.drop_left' hseq4]
  rw [List.take_left' hlen4, List.drop_left' hlen4]
  rw [leToI64_i64ToLe p.pts h1 h2, leToNat_natToLe, leToNat_natToLe]
  have hseqv : p.seq % 256 ^ 4 = p.seq := Nat.mod_eq_of_lt (by norm_num at h3 ⊢; omega)
  have hlenv : p.data.length % 256 ^ 4 = p.data.length :=
    Nat.mod_eq_of_lt (by norm_num at h4 ⊢; omega)
  rw [hseqv, hlenv]
  rw [if_neg (by simp)]
  rw [List.take_left' rfl]

/-! ## Stream-transport framing: `src/network/tcp.rs` -/

/-- `NetworkError` (network/mod.rs lines 19–38); error payloads irrelevant to
the claims are dropped. -/
inductive NetworkError where
  | ConnectionFailed (msg : String)
  | Io
  | Protocol (msg : String)
  | ConnectionClosed
  | Timeout
  | Quic (msg : String)
deriving DecidableEq, Repr

/-- The `as i64` cast of a `u64` value (two's-complement reinterpretation). -/
def u64AsI64 (n : Nat) : Int :=
  if n % 2 ^ 64 < 2 ^ 63 then ((n % 2 ^ 64 : Nat) : Int)
  else ((n % 2 ^ 64 : Nat) : Int) - 2 ^ 64

/-- `TcpConnection::read_packet` (tcp.rs lines 27–51).  The socket is modelled
as the list of bytes it will deliver; a failing `read_exact` (not enough
bytes) is the `Io` error.  Header: `pts:u64_be | len:u32_be`, then `len`
payload bytes; the produced packet has `seq = 0` and the caller's kind. -/
def readPacket (stream : List Nat) (packet_type : PacketType) :
    Except NetworkError (Packet × List Nat) :=
  if stream.length < 12 then .error .Io
  else if 20 * 1024 * 1024 < beToNat ((stream.take 12).drop 8) then
    .error (.Protocol
      ("Packet too large: " ++ toString (beToNat ((stream.take 12).drop 8)) ++ " bytes"))
  else if (stream.drop 12).length < beToNat ((stream.take 12).drop 8) then .error .Io
  else
    .ok (⟨packet_type, u64AsI64 (beToNat ((stream.take 12).take 8)), 0,
          (stream.drop 12).take (beToNat ((stream.take 12).drop 8))⟩,
         (stream.drop 12).drop (beToNat ((stream.take 12).drop 8)))

/-! ## Claim C1 -/

/-- C1: for every packet whose payload is at most 20 MiB (and whose fields fit
the Rust types `i64`/`u32`), `Packet::from_bytes (Packet::to_bytes p)` returns
`Ok` of a packet with the same kind, pts, seq and payload as `p`. -/
theorem packet_roundtrip (p : Packet)
    (hlen : p.data.length ≤ 20 * 1024 * 1024)
    (hpts1 : -(2 ^ 63) ≤ p.pts) (hpts2 : p.pts < 2 ^ 63) (hseq : p.seq < 2 ^ 32) :
    Packet.fromBytes (Packet.toBytes p) = .ok p := by
  have h := Packet.fromBytes_toBytes_append p [] ⟨hpts1, hpts2, hseq, by norm_num at hlen ⊢; omega⟩
  simpa using h

theorem packet_roundtrip_witness :
    Packet.fromBytes (Packet.toBytes ⟨.Video, -3, 7, [1, 2, 3]⟩) =
      .ok ⟨.Video, -3, 7, [1, 2, 3]⟩ :=
  packet_roundtrip ⟨.Video, -3, 7, [1, 2, 3]⟩ (by norm_num) (by norm_num) (by norm_num)
    (by norm_num)

/-! ## Claim C9 -/

/-- C9: `Packet::from_bytes` errors on every buffer of at least 17 bytes whose
first byte is not a kind tag in {1,2,3,4,5}, and every packet it returns has a
kind tag in that set. -/
theorem fromBytes_invalid_kind :
    (∀ buf : List Nat, 17 ≤ buf.length → buf.getD 0 0 ∉ ([1, 2, 3, 4, 5] : List Nat) →
       Packet.fromBytes buf = .error "Invalid packet type") ∧
    (∀ (buf : List Nat) (p : Packet), Packet.fromBytes buf = .ok p →
       p.packet_type.toByte ∈ ([1, 2, 3, 4, 5] : List Nat)) := by
  constructor
  · intro buf hbig hmem
    have h17 : Packet.HEADER_SIZE = 17 := rfl
    have hnone : ∀ v : Nat, v ∉ ([1, 2, 3, 4, 5] : List Nat) → PacketType.tryFrom v = none := by
      intro v hv
      simp only [List.mem_cons, List.not_mem_nil, or_false, not_or] at hv
      obtain ⟨n1, n2, n3, n4, n5⟩ := hv
      simp [PacketType.tryFrom, n1, n2, n3, n4, n5]
    unfold Packet.fromBytes
    rw [if_neg (by omega), hnone _ hmem]
  · intro buf p _
    rcases p with ⟨t, pts, seq, data⟩
    cases t <;> simp [PacketType.toByte]

theorem fromBytes_invalid_kind_witness :
    Packet.fromBytes (List.replicate 17 9) = .error "Invalid packet type" :=
  fromBytes_invalid_kind.1 (List.replicate 17 9) (by simp) (by decide)

/-! ## Claim C10 -/

/-- C10: on the stream transport, a frame whose big-endian length field
exceeds 20 MiB makes `read_packet` return a `Protocol` error before any
payload byte is consumed (no condition on the rest of the stream); every
packet it does return has `seq = 0`, the kind of the producing socket and a
payload of at most 20 MiB (exactly the `len` bytes following the header). -/
theorem readPacket_length_guard :
    (∀ (stream : List Nat) (ty : PacketType), 12 ≤ stream.length →
       20 * 1024 * 1024 < beToNat ((stream.take 12).drop 8) →
       readPacket stream ty =
         .error (.Protocol
           ("Packet too large: " ++ toString (beToNat ((stream.take 12).drop 8)) ++ " bytes"))) ∧
    (∀ (stream : List Nat) (ty : PacketType) (pkt : Packet) (rest : List Nat),
       readPacket stream ty = .ok (pkt, rest) →
       pkt.seq = 0 ∧ pkt.packet_type = ty ∧ pkt.data.length ≤ 20 * 1024 * 1024) ∧
    (∀ (stream : List Nat) (ty : PacketType), 12 ≤ stream.length →
       beToNat ((stream.take 12).drop 8) ≤ 20 * 1024 * 1024 →
       beToNat ((stream.take 12).drop 8) ≤ (stream.drop 12).length →
       readPacket stream ty =
         .ok (⟨ty, u64AsI64 (beToNat ((stream.take 12).take 8)), 0,
               (stream.drop 12).take (beToNat ((stream.take 12).drop 8))⟩,
              (stream.drop 12).drop (beToNat ((stream.take 12).drop 8)))) := by
  refine ⟨?_, ?_, ?_⟩
  · intro stream ty hlen hbig
    unfold readPacket
    rw [if_neg (by omega), if_pos hbig]
  · intro stream ty pkt rest hok
    unfold readPacket at hok
    split at hok
    · exact absurd hok (by simp)
    · split at hok
      · exact absurd hok (by simp)
      · split at hok
        · exact absurd hok (by simp)
        · rename_i hsz hlen hav
          simp only [Except.ok.injEq, Prod.mk.injEq] at hok
          obtain ⟨hp, _⟩ := hok
          subst hp
          refine ⟨rfl, rfl, ?_⟩
          simp only [List.length_take]
          omega
  · intro stream ty hlen hsmall hav
    unfold readPacket
    rw [if_neg (by omega), if_neg (by omega), if_neg (by omega)]

theorem readPacket_length_guard_witness :
    readPacket (List.replicate 8 0 ++ [255, 255, 255, 255]) PacketType.Video =
      .error (.Protocol ("Packet too large: " ++ toString 4294967295 ++ " bytes")) := by
  have h := readPacket_length_guard.1 (List.replicate 8 0 ++ [255, 255, 255, 255])
    PacketType.Video (by decide) (by decide)
  have hval : beToNat (((List.replicate 8 0 ++ [255, 255, 255, 255] : List Nat).take 12).drop 8)
      = 4294967295 := by decide
  rw [hval] at h
  exact h

/-! ## Network statistics: `src/network/mod.rs` -/

/-- `NetworkStats` (network/mod.rs lines 71–90).  The `f64` fields are
modelled as exact rationals. -/
structure NetworkStats where
  rtt_ms : ℚ
  packet_loss : ℚ
  bandwidth_mbps : ℚ
  bytes_received : Nat
  packets_received : Nat
  packets_lost : Nat
deriving DecidableEq, Repr

/-- `NetworkStats::default()` — all fields zero. -/
def NetworkStats.dflt : NetworkStats := ⟨0, 0, 0, 0, 0, 0⟩

/-- `NetworkStats::quality_score` (network/mod.rs lines 94–98):
`rtt_score * 0.6 + loss_score * 0.4` with each score clamped via
`(1 - min(x, 1)).max(0)`. -/
def NetworkStats.qualityScore (s : NetworkStats) : ℚ :=
  let rtt_score := max (1 - min (s.rtt_ms / 500) 1) 0
  let loss_score := max (1 - min (s.packet_loss / 5) 1) 0
  rtt_score * (6 / 10) + loss_score * (4 / 10)

/-! ## Claim C8 -/

/-- C8 counterexample: the claim quantifies over every `NetworkStats` value,
but `rtt_ms` is an `f64` that can be negative, and then `min(rtt/500, 1)` is
negative, the outer `.max(0.0)` never fires (its argument is positive), and
the score exceeds 1: at `rtt_ms = -500`, `packet_loss = 0` the score is 8/5. -/
theorem quality_score_counterexample :
    NetworkStats.qualityScore ⟨-500, 0, 0, 0, 0, 0⟩ = 8 / 5 ∧
    ¬ NetworkStats.qualityScore ⟨-500, 0, 0, 0, 0, 0⟩ ≤ 1 := by
  constructor <;> norm_num [NetworkStats.qualityScore, min_def, max_def]

/-- C8 (amended): for every `NetworkStats` with nonnegative `rtt_ms` and
`packet_loss` — which is every value the transports produce — the quality
score equals `0.6·(1 − min(rtt/500,1)) + 0.4·(1 − min(loss/5,1))`, lies in
`[0,1]`, is 1 at `rtt = 0, loss = 0` and 0 once `rtt ≥ 500` and `loss ≥ 5`.
(The closed formula without the `max 0` clamps holds for all stats; only the
`[0,1]` bound needs nonnegativity.) -/
theorem quality_score_formula (s : NetworkStats)
    (hr : 0 ≤ s.rtt_ms) (hl : 0 ≤ s.packet_loss) :
    s.qualityScore =
      (6 / 10) * (1 - min (s.rtt_ms / 500) 1) + (4 / 10) * (1 - min (s.packet_loss / 5) 1) ∧
    0 ≤ s.qualityScore ∧ s.qualityScore ≤ 1 ∧
    (s.rtt_ms = 0 → s.packet_loss = 0 → s.qualityScore = 1) ∧
    (500 ≤ s.rtt_ms → 5 ≤ s.packet_loss → s.qualityScore = 0) := by
  have hmax : ∀ a : ℚ, max (1 - min a 1) 0 = 1 - min a 1 := by
    intro a
    have h := min_le_right a 1
    exact max_eq_left (by linarith)
  have hm1 : 0 ≤ min (s.rtt_ms / 500) 1 := le_min (by positivity) (by norm_num)
  have hm2 : 0 ≤ min (s.packet_loss / 5) 1 := le_min (by positivity) (by norm_num)
  have hM1 : min (s.rtt_ms / 500) 1 ≤ 1 := min_le_right _ _
  have hM2 : min (s.packet_loss / 5) 1 ≤ 1 := min_le_right _ _
  unfold NetworkStats.qualityScore
  simp only [hmax]
  refine ⟨by ring, by nlinarith, by nlinarith, ?_, ?_⟩
  · intro h0 l0
    rw [h0, l0]
    norm_num
  · intro hr5 hl5
    have e1 : min (s.rtt_ms / 500) 1 = 1 := min_eq_right (by linarith)
    have e2 : min (s.packet_loss / 5) 1 = 1 := min_eq_right (by linarith)
    rw [e1, e2]
    ring

theorem quality_score_formula_witness :
    0 ≤ NetworkStats.qualityScore ⟨100, 1, 0, 0, 0, 0⟩ ∧
    NetworkStats.qualityScore ⟨100, 1, 0, 0, 0, 0⟩ ≤ 1 :=
  ⟨(quality_score_formula ⟨100, 1, 0, 0, 0, 0⟩ (by norm_num) (by norm_num)).2.1,
   (quality_score_formula ⟨100, 1, 0, 0, 0, 0⟩ (by norm_num) (by norm_num)).2.2.1⟩

/-! ## Datagram-transport loss accounting: `src/network/quic.rs` -/

/-- The statistics-relevant state of a `QuicConnection` (quic.rs lines
13–20): its `stats` plus `last_seq`. -/
structure QuicRecvState where
  stats : NetworkStats
  last_seq : Nat
deriving DecidableEq, Repr

/-- `QuicConnection::new` leaves `stats = NetworkStats::default()` and
`last_seq = 0` (quic.rs lines 65–72). -/
def quicInit : QuicRecvState := ⟨NetworkStats.dflt, 0⟩

/-- The accounting `QuicConnection::recv` performs on a datagram that parsed
to a packet with sequence number `seq` and `len` datagram bytes (quic.rs
lines 164–174), followed by the packet-loss part of `update_stats` (quic.rs
lines 138–142).  `u32` arithmetic wraps modulo `2^32` (release semantics):
`seq > last_seq + 1` and `seq - last_seq - 1` are u32 operations.  `rtt_ms`
and `bandwidth_mbps` come from the QUIC stack and are left untouched here. -/
def recvAccount (st : QuicRecvState) (seq len : Nat) : QuicRecvState :=
  let lost_inc :=
    if (st.last_seq + 1) % 2 ^ 32 < seq % 2 ^ 32 then
      (seq % 2 ^ 32 + 2 ^ 32 - (st.last_seq + 1) % 2 ^ 32) % 2 ^ 32
    else 0
  let packets_lost := st.stats.packets_lost + lost_inc
  let packets_received := st.stats.packets_received + 1
  let total := packets_received + packets_lost
  let packet_loss :=
    if 0 < total then 100 * (packets_lost : ℚ) / (total : ℚ) else st.stats.packet_loss
  { stats := { st.stats with
      packets_lost := packets_lost
      packets_received := packets_received
      bytes_received := st.stats.bytes_received + len
      packet_loss := packet_loss }
    last_seq := seq % 2 ^ 32 }

/-- Deliver a list of datagram sequence numbers (payload sizes immaterial). -/
def recvAll (st : QuicRecvState) (l : List Nat) : QuicRecvState :=
  l.foldl (fun s q => recvAccount s q 0) st

/-- The sequence list is strictly increasing and gap-free from the
receiver's current `last_seq`: each element is exactly its predecessor
plus one. -/
def GapFree : Nat → List Nat → Prop
  | _, [] => True
  | last, s :: rest => last < s ∧ s ≤ last + 1 ∧ GapFree s rest

instance GapFree.dec : (last : Nat) → (l : List Nat) → Decidable (GapFree last l)
  | _, [] => .isTrue trivial
  | last, s :: rest =>
      have _ihd := GapFree.dec s rest
      inferInstanceAs (Decidable (last < s ∧ s ≤ last + 1 ∧ GapFree s rest))

/-! ## Claim C3 -/

/-- C3 counterexample: with `last_seq = 2^32 - 1` (reachable by receiving a
datagram with `seq = u32::MAX`) and an incoming `seq = 1`, the claim's
integer-arithmetic rule says nothing is added to `packets_lost` (1 is not
greater than `last_seq + 1`), but the code's u32 computation wraps
(`last_seq + 1` overflows to 0) and adds 1. -/
theorem recv_loss_counterexample :
    ¬ (2 ^ 32 - 1 + 1 < 1) ∧
    (recvAccount ⟨⟨0, 0, 0, 0, 5, 0⟩, 2 ^ 32 - 1⟩ 1 0).stats.packets_lost = 1 := by
  constructor
  · decide
  · decide

/-- C3 (amended): provided `last_seq + 1` does not overflow a u32 — true in
every state except `last_seq = u32::MAX` — `recv` adds `seq − last_seq − 1`
to `packets_lost` exactly when `seq > last_seq + 1`, increments
`packets_received`, and reports `packet_loss` as
`100·packets_lost/(packets_lost + packets_received)`.  Delivering
`seq = 1,2,4,5,8` from a fresh connection yields `packets_received = 5`,
`packets_lost = 3`, loss `37.5`; and every strictly increasing gap-free
u32 sequence keeps `packets_lost` at zero. -/
theorem recv_loss_accounting :
    (∀ (st : QuicRecvState) (seq len : Nat), seq < 2 ^ 32 → st.last_seq + 1 < 2 ^ 32 →
       ((recvAccount st seq len).stats.packets_lost =
          st.stats.packets_lost + (if st.last_seq + 1 < seq then seq - st.last_seq - 1 else 0)) ∧
       (recvAccount st seq len).stats.packets_received = st.stats.packets_received + 1 ∧
       (recvAccount st seq len).stats.packet_loss =
         100 * ((recvAccount st seq len).stats.packets_lost : ℚ) /
           (((recvAccount st seq len).stats.packets_lost +
             (recvAccount st seq len).stats.packets_received : Nat) : ℚ)) ∧
    ((recvAll quicInit [1, 2, 4, 5, 8]).stats.packets_received = 5 ∧
     (recvAll quicInit [1, 2, 4, 5, 8]).stats.packets_lost = 3 ∧
     (recvAll quicInit [1, 2, 4, 5, 8]).stats.packet_loss = 75 / 2) ∧
    (∀ l : List Nat, GapFree quicInit.last_seq l → (∀ s ∈ l, s < 2 ^ 32) →
       (recvAll quicInit l).stats.packets_lost = 0) := by
  refine ⟨?_, by refine ⟨by decide, by decide, ?_⟩; norm_num [recvAll, recvAccount, quicInit,
    NetworkStats.dflt], ?_⟩
  · intro st seq len hseq hlast
    have hs : seq % 2 ^ 32 = seq := Nat.mod_eq_of_lt hseq
    have hl : (st.last_seq + 1) % 2 ^ 32 = st.last_seq + 1 := Nat.mod_eq_of_lt hlast
    unfold recvAccount
    simp only [hs, hl]
    refine ⟨?_, by trivial, ?_⟩
    · split <;> omega
    · rw [if_pos (by omega)]
      push_cast
      ring_nf
  · have key : ∀ (l : List Nat) (st : QuicRecvState), GapFree st.last_seq l →
        (∀ s ∈ l, s < 2 ^ 32) →
        (recvAll st l).stats.packets_lost = st.stats.packets_lost := by
      intro l
      induction l with
      | nil => intro st _ _; rfl
      | cons s rest ih =>
          intro st hgap hbound
          obtain ⟨hlt, hle, hrest⟩ := hgap
          have hs32 : s < 2 ^ 32 := hbound s (by simp)
          have heq : s = st.last_seq + 1 := by omega
          have hnl : (recvAccount st s 0).stats.packets_lost = st.stats.packets_lost := by
            unfold recvAccount
            simp only [heq]
            rw [if_neg (by omega)]
            omega
          have hls : (recvAccount st s 0).last_seq = s := by
            unfold recvAccount
            simp only []
            omega
          have hih := ih (recvAccount st s 0) (by rw [hls]; exact hrest)
            (fun x hx => by
              have := hbound x (List.mem_cons_of_mem s hx)
              omega)
          simp only [recvAll, List.foldl_cons] at hih ⊢
          rw [hih, hnl]
    intro l hgap hbound
    rw [key l quicInit hgap hbound]
    rfl

theorem recv_loss_accounting_witness :
    ((recvAccount ⟨⟨0, 0, 0, 0, 0, 0⟩, 0⟩ 3 10).stats.packets_lost = 0 + 2 ∧
     (recvAccount ⟨⟨0, 0, 0, 0, 0, 0⟩, 0⟩ 3 10).stats.packets_received = 0 + 1 ∧
     (recvAccount ⟨⟨0, 0, 0, 0, 0, 0⟩, 0⟩ 3 10).stats.packet_loss =
       100 * ((recvAccount ⟨⟨0, 0, 0, 0, 0, 0⟩, 0⟩ 3 10).stats.packets_lost : ℚ) /
         (((recvAccount ⟨⟨0, 0, 0, 0, 0, 0⟩, 0⟩ 3 10).stats.packets_lost +
           (recvAccount ⟨⟨0, 0, 0, 0, 0, 0⟩, 0⟩ 3 10).stats.packets_received : Nat) : ℚ)) ∧
    (recvAll quicInit [1, 2, 3]).stats.packets_lost = 0 := by
  refine ⟨?_, ?_⟩
  · have h := (recv_loss_accounting.1 ⟨⟨0, 0, 0, 0, 0, 0⟩, 0⟩ 3 10 (by norm_num) (by norm_num))
    refine ⟨?_, h.2.1, h.2.2⟩
    have := h.1
    simpa using this
  · exact recv_loss_accounting.2.2 [1, 2, 3] (by decide) (by decide)

/-! ## A/V synchronization engine: `src/sync/mod.rs` -/

/-- `TimestampedFrame` (sync/mod.rs lines 6–11). -/
structure TimestampedFrame where
  pts : Int
  data : List Nat
  width : Nat
  height : Nat
deriving DecidableEq, Repr

/-- `TimestampedAudio` (sync/mod.rs lines 14–17); `f32` samples as ℚ. -/
structure TimestampedAudio where
  pts : Int
  samples : List ℚ
deriving DecidableEq, Repr

/-- `SyncAction` (sync/mod.rs lines 21–36). -/
inductive SyncAction where
  | Continue
  | DropVideoFrame
  | SkipAudioSamples
  | WaitForAudio
  | WaitForVideo
deriving DecidableEq, Repr

/-- `SyncStats` (sync/mod.rs lines 54–60); the `f64` EWMA as ℚ. -/
structure SyncStats where
  video_frames_dropped : Nat
  audio_samples_skipped : Nat
  sync_corrections : Nat
  current_drift_ms : Int
  avg_drift_ms : ℚ
deriving DecidableEq, Repr

/-- `SyncEngine` (sync/mod.rs lines 39–50); the `VecDeque`s are lists with
the front at the head.  The dead field `last_sync_check` is omitted. -/
structure SyncEngine where
  video_buffer : List TimestampedFrame
  audio_buffer : List TimestampedAudio
  sync_threshold_ms : Int
  max_video_buffer : Nat
  max_audio_buffer : Nat
  video_drift_ms : Int
  audio_drift_ms : Int
  stats : SyncStats
deriving DecidableEq, Repr

/-- `SyncEngine::new` (sync/mod.rs lines 69–81). -/
def SyncEngine.mk0 (sync_threshold_ms : Int) (max_video_buffer max_audio_buffer : Nat) :
    SyncEngine :=
  ⟨[], [], sync_threshold_ms, max_video_buffer, max_audio_buffer, 0, 0, ⟨0, 0, 0, 0, 0⟩⟩

/-- The `while len >= cap { pop_front(); counter += 1 }` trim loop of
`add_video_frame`/`add_audio_samples` (sync/mod.rs lines 86–89 and 102–105):
returns the trimmed buffer and the number of popped entries.  For `cap = 0`
the Rust loop never terminates; the model returns the empty buffer there. -/
def trimLoop (cap : Nat) : List α → List α × Nat
  | [] => ([], 0)
  | x :: xs =>
      if cap ≤ (x :: xs).length then
        ((trimLoop cap xs).1, (trimLoop cap xs).2 + 1)
      else (x :: xs, 0)

/-- `SyncEngine::add_video_frame` (sync/mod.rs lines 84–97). -/
def SyncEngine.addVideoFrame (e : SyncEngine) (pts : Int) (data : List Nat)
    (width height : Nat) : SyncEngine :=
  let t := trimLoop e.max_video_buffer e.video_buffer
  { e with
    video_buffer := t.1 ++ [⟨pts, data, width, height⟩]
    stats := { e.stats with video_frames_dropped := e.stats.video_frames_dropped + t.2 } }

/-- `SyncEngine::add_audio_samples` (sync/mod.rs lines 100–109). -/
def SyncEngine.addAudioSamples (e : SyncEngine) (pts : Int) (samples : List ℚ) : SyncEngine :=
  let t := trimLoop e.max_audio_buffer e.audio_buffer
  { e with
    audio_buffer := t.1 ++ [⟨pts, samples⟩]
    stats := { e.stats with audio_samples_skipped := e.stats.audio_samples_skipped + t.2 } }

/-- Release-mode wrap-around of an `i64` computation into
`[-2^63, 2^63)` (two's complement). -/
def wrapI64 (x : Int) : Int := (x + 2 ^ 63) % 2 ^ 64 - 2 ^ 63

theorem wrapI64_eq_self (x : Int) (h1 : -2 ^ 63 ≤ x) (h2 : x < 2 ^ 63) :
    wrapI64 x = x := by
  unfold wrapI64
  omega

/-- `SyncEngine::sync` (sync/mod.rs lines 112–153).  The subtraction
`video_pts - audio_pts` (line 127) is `i64` arithmetic, which wraps in
release builds; Rust `i64` division truncates toward zero, which is
`Int.tdiv`. -/
def SyncEngine.sync (e : SyncEngine) : SyncEngine × SyncAction :=
  match e.video_buffer with
  | [] => (e, .WaitForVideo)
  | vf :: _ =>
      match e.audio_buffer with
      | [] => (e, .WaitForAudio)
      | af :: _ =>
          let drift_ms := Int.tdiv (wrapI64 (vf.pts - af.pts)) 1000
          let stats1 := { e.stats with
            current_drift_ms := drift_ms
            avg_drift_ms := e.stats.avg_drift_ms * (9 / 10) + (drift_ms : ℚ) * (1 / 10) }
          if e.sync_threshold_ms < |drift_ms| then
            let stats2 := { stats1 with sync_corrections := stats1.sync_corrections + 1 }
            if 0 < drift_ms then
              ({ e with stats := { stats2 with
                  video_frames_dropped := stats2.video_frames_dropped + 1 } },
               .DropVideoFrame)
            else
              ({ e with stats := { stats2 with
                  audio_samples_skipped := stats2.audio_samples_skipped + 1 } },
               .SkipAudioSamples)
          else ({ e with stats := stats1 }, .Continue)

/-- One insertion into the sync engine. -/
inductive SyncOp where
  | video (pts : Int) (data : List Nat) (width height : Nat)
  | audio (pts : Int) (samples : List ℚ)

def applySyncOp (e : SyncEngine) : SyncOp → SyncEngine
  | .video pts data w h => e.addVideoFrame pts data w h
  | .audio pts samples => e.addAudioSamples pts samples

def applySyncOps (e : SyncEngine) (ops : List SyncOp) : SyncEngine :=
  ops.foldl applySyncOp e

theorem trimLoop_length_lt (cap : Nat) (hc : 1 ≤ cap) (l : List α) :
    (trimLoop cap l).1.length < cap := by
  induction l with
  | nil => simpa [trimLoop] using hc
  | cons x xs ih =>
      simp only [trimLoop]
      split
      · exact ih
      · rename_i hns
        show (x :: xs).length < cap
        simp only [List.length_cons] at hns ⊢
        omega

theorem trimLoop_noop (cap : Nat) (l : List α) (h : l.length < cap) :
    trimLoop cap l = (l, 0) := by
  cases l with
  | nil => rfl
  | cons x xs =>
      simp only [List.length_cons] at h
      simp only [trimLoop,
        if_neg (by simp only [List.length_cons]; omega : ¬ cap ≤ (x :: xs).length)]

theorem trimLoop_full (cap : Nat) (l : List α) (h : l.length = cap) (hc : 1 ≤ cap) :
    trimLoop cap l = (l.tail, 1) := by
  cases l with
  | nil => simp at h; omega
  | cons x xs =>
      simp only [List.length_cons] at h
      have hxs : trimLoop cap xs = (xs, 0) := trimLoop_noop cap xs (by omega)
      simp only [trimLoop, hxs,
        if_pos (by simp only [List.length_cons]; omega : cap ≤ (x :: xs).length)]
      rfl

/-- Invariant step: one insertion keeps both buffers within capacity and
leaves the capacity fields unchanged. -/
theorem applySyncOp_inv (op : SyncOp) (e : SyncEngine)
    (hv1 : 1 ≤ e.max_video_buffer) (ha1 : 1 ≤ e.max_audio_buffer)
    (hlv : e.video_buffer.length ≤ e.max_video_buffer)
    (hla : e.audio_buffer.length ≤ e.max_audio_buffer) :
    (applySyncOp e op).max_video_buffer = e.max_video_buffer ∧
    (applySyncOp e op).max_audio_buffer = e.max_audio_buffer ∧
    (applySyncOp e op).video_buffer.length ≤ e.max_video_buffer ∧
    (applySyncOp e op).audio_buffer.length ≤ e.max_audio_buffer := by
  cases op with
  | video pts data w h =>
      refine ⟨rfl, rfl, ?_, hla⟩
      have ht := trimLoop_length_lt e.max_video_buffer hv1 e.video_buffer
      simp only [applySyncOp, SyncEngine.addVideoFrame, List.length_append, List.length_cons,
        List.length_nil]
      omega
  | audio pts samples =>
      refine ⟨rfl, rfl, hlv, ?_⟩
      have ht := trimLoop_length_lt e.max_audio_buffer ha1 e.audio_buffer
      simp only [applySyncOp, SyncEngine.addAudioSamples, List.length_append, List.length_cons,
        List.length_nil]
      omega

/-! ## Claim C6 -/

/-- C6: starting from a fresh engine with capacities ≥ 1 (the `cap = 0`
configuration makes the Rust trim loop spin forever), no sequence of
insertions pushes either buffer past its capacity; and an insertion into a
full buffer drops exactly the oldest entry and bumps the matching counter by
exactly one. -/
theorem sync_buffer_capacity (T : Int) (maxv maxa : Nat) (hv : 1 ≤ maxv) (ha : 1 ≤ maxa) :
    (∀ ops : List SyncOp,
       (applySyncOps (SyncEngine.mk0 T maxv maxa) ops).video_buffer.length ≤ maxv ∧
       (applySyncOps (SyncEngine.mk0 T maxv maxa) ops).audio_buffer.length ≤ maxa) ∧
    (∀ (e : SyncEngine) (pts : Int) (data : List Nat) (w h : Nat),
       e.video_buffer.length = e.max_video_buffer → 1 ≤ e.max_video_buffer →
       (e.addVideoFrame pts data w h).video_buffer =
         e.video_buffer.tail ++ [⟨pts, data, w, h⟩] ∧
       (e.addVideoFrame pts data w h).stats.video_frames_dropped =
         e.stats.video_frames_dropped + 1) ∧
    (∀ (e : SyncEngine) (pts : Int) (samples : List ℚ),
       e.audio_buffer.length = e.max_audio_buffer → 1 ≤ e.max_audio_buffer →
       (e.addAudioSamples pts samples).audio_buffer =
         e.audio_buffer.tail ++ [⟨pts, samples⟩] ∧
       (e.addAudioSamples pts samples).stats.audio_samples_skipped =
         e.stats.audio_samples_skipped + 1) := by
  refine ⟨?_, ?_, ?_⟩
  · have inv : ∀ (ops : List SyncOp) (e : SyncEngine),
        1 ≤ e.max_video_buffer → 1 ≤ e.max_audio_buffer →
        e.video_buffer.length ≤ e.max_video_buffer →
        e.audio_buffer.length ≤ e.max_audio_buffer →
        (applySyncOps e ops).max_video_buffer = e.max_video_buffer ∧
        (applySyncOps e ops).max_audio_buffer = e.max_audio_buffer ∧
        (applySyncOps e ops).video_buffer.length ≤ e.max_video_buffer ∧
        (applySyncOps e ops).audio_buffer.length ≤ e.max_audio_buffer := by
      intro ops
      induction ops with
      | nil => intro e _ _ h1 h2; exact ⟨rfl, rfl, h1, h2⟩
      | cons op rest ih =>
          intro e hv1 ha1 hlv hla
          obtain ⟨m1, m2, l1, l2⟩ := applySyncOp_inv op e hv1 ha1 hlv hla
          have := ih (applySyncOp e op) (by omega) (by omega) (by omega) (by omega)
          simp only [applySyncOps, List.foldl_cons] at *
          exact ⟨by omega, by omega, by omega, by omega⟩
    intro ops
    have := inv ops (SyncEngine.mk0 T maxv maxa) hv ha (by simp [SyncEngine.mk0])
      (by simp [SyncEngine.mk0])
    exact ⟨this.2.2.1, this.2.2.2⟩
  · intro e pts data w h hfull hc
    have ht := trimLoop_full e.max_video_buffer e.video_buffer hfull hc
    constructor
    · simp [SyncEngine.addVideoFrame, ht]
    · simp [SyncEngine.addVideoFrame, ht]
  · intro e pts samples hfull hc
    have ht := trimLoop_full e.max_audio_buffer e.audio_buffer hfull hc
    constructor
    · simp [SyncEngine.addAudioSamples, ht]
    · simp [SyncEngine.addAudioSamples, ht]

theorem sync_buffer_capacity_witness :
    (applySyncOps (SyncEngine.mk0 50 2 2)
        [.video 0 [] 1 1, .video 1 [] 1 1, .video 2 [] 1 1]).video_buffer.length ≤ 2 :=
  ((sync_buffer_capacity 50 2 2 (by decide) (by decide)).1
    [.video 0 [] 1 1, .video 1 [] 1 1, .video 2 [] 1 1]).1

/-! ## Claim C4 -/

/-- C4 counterexample, two defects.  First: the claim's three-way case split
is wrong for engines whose threshold is negative (the field is a plain
`i64`).  With threshold `-5`, video head pts 0 and audio head pts 3000,
`drift_ms = -3 > T`, so the claim demands `DropVideoFrame`; the code tests
`|drift| > T` first and then the sign, returning `SkipAudioSamples`.
Second: the subtraction `video_pts - audio_pts` wraps at `i64` in release
builds.  With threshold 50, video head pts `2^63 - 1` and audio head pts
`-2^63`, the unbounded drift `(vp - ap)/1000` far exceeds `T`, so the claim
demands `DropVideoFrame`; the code wraps the difference to `-1`, so
`drift_ms = 0` and it returns `Continue`. -/
theorem sync_step_counterexample :
    (((-5 : Int) < Int.tdiv ((0 : Int) - 3000) 1000) ∧
     (SyncEngine.sync
         ⟨[⟨0, [], 1, 1⟩], [⟨3000, []⟩], -5, 16, 64, 0, 0, ⟨0, 0, 0, 0, 0⟩⟩).2 ≠
       SyncAction.DropVideoFrame) ∧
    (((50 : Int) < Int.tdiv ((2 ^ 63 - 1 : Int) - (-2 ^ 63)) 1000) ∧
     (SyncEngine.sync
         ⟨[⟨2 ^ 63 - 1, [], 1, 1⟩], [⟨-2 ^ 63, []⟩], 50, 16, 64, 0, 0,
          ⟨0, 0, 0, 0, 0⟩⟩).2 =
       SyncAction.Continue) := by
  exact ⟨⟨by decide, by decide⟩, ⟨by decide, by decide⟩⟩

/-- C4 (amended): for every engine state whose drift threshold is
nonnegative (the configured default is 50 ms) and whose head-pts difference
`vp − ap` does not overflow an `i64` (the subtraction at sync/mod.rs line
127 wraps in release builds), the sync step returns `WaitForVideo` on an
empty video buffer, else `WaitForAudio` on an empty audio buffer, else with
`drift_ms = (vp − ap) / 1000` (truncated i64 division): `Continue` when
`|drift_ms| ≤ T`, `DropVideoFrame` with the drop counter incremented when
`drift_ms > T`, and `SkipAudioSamples` with the skip counter incremented
when `drift_ms < −T`. -/
theorem sync_step_cases (e : SyncEngine) (hT : 0 ≤ e.sync_threshold_ms) :
    (e.video_buffer = [] → e.sync = (e, .WaitForVideo)) ∧
    (∀ vf vrest, e.video_buffer = vf :: vrest → e.audio_buffer = [] →
       e.sync = (e, .WaitForAudio)) ∧
    (∀ vf vrest af arest, e.video_buffer = vf :: vrest → e.audio_buffer = af :: arest →
       -2 ^ 63 ≤ vf.pts - af.pts → vf.pts - af.pts < 2 ^ 63 →
       ((|Int.tdiv (vf.pts - af.pts) 1000| ≤ e.sync_threshold_ms →
           (e.sync).2 = .Continue ∧
           (e.sync).1.stats.video_frames_dropped = e.stats.video_frames_dropped ∧
           (e.sync).1.stats.audio_samples_skipped = e.stats.audio_samples_skipped) ∧
        (e.sync_threshold_ms < Int.tdiv (vf.pts - af.pts) 1000 →
           (e.sync).2 = .DropVideoFrame ∧
           (e.sync).1.stats.video_frames_dropped = e.stats.video_frames_dropped + 1) ∧
        (Int.tdiv (vf.pts - af.pts) 1000 < -e.sync_threshold_ms →
           (e.sync).2 = .SkipAudioSamples ∧
           (e.sync).1.stats.audio_samples_skipped = e.stats.audio_samples_skipped + 1))) := by
  refine ⟨?_, ?_, ?_⟩
  · intro hv
    unfold SyncEngine.sync
    rw [hv]
  · intro vf vrest hv haud
    unfold SyncEngine.sync
    rw [hv, haud]
  · intro vf vrest af arest hv haud hlo hhi
    have hwrap : wrapI64 (vf.pts - af.pts) = vf.pts - af.pts :=
      wrapI64_eq_self _ hlo hhi
    refine ⟨?_, ?_, ?_⟩
    · intro hle
      unfold SyncEngine.sync
      rw [hv, haud]
      simp only [hwrap, if_neg (not_lt.mpr hle)]
      exact ⟨by trivial, by trivial, by trivial⟩
    · intro hgt
      have hpos : 0 < Int.tdiv (vf.pts - af.pts) 1000 := by omega
      have habs : |Int.tdiv (vf.pts - af.pts) 1000| = Int.tdiv (vf.pts - af.pts) 1000 :=
        abs_of_pos hpos
      unfold SyncEngine.sync
      rw [hv, haud]
      simp only [hwrap, habs, if_pos hgt, if_pos hpos]
      exact ⟨by trivial, by trivial⟩
    · intro hlt
      have hneg : Int.tdiv (vf.pts - af.pts) 1000 < 0 := by omega
      have habs : |Int.tdiv (vf.pts - af.pts) 1000| = -Int.tdiv (vf.pts - af.pts) 1000 :=
        abs_of_neg hneg
      unfold SyncEngine.sync
      rw [hv, haud]
      simp only [hwrap, habs,
        if_pos (by omega : e.sync_threshold_ms < -Int.tdiv (vf.pts - af.pts) 1000),
        if_neg (by omega : ¬ (0 : Int) < Int.tdiv (vf.pts - af.pts) 1000)]
      exact ⟨by trivial, by trivial⟩

theorem sync_step_cases_witness :
    (SyncEngine.sync
        ⟨[⟨100000, [], 1, 1⟩], [⟨0, []⟩], 50, 16, 64, 0, 0, ⟨0, 0, 0, 0, 0⟩⟩).2 =
      SyncAction.DropVideoFrame :=
  (((sync_step_cases
      ⟨[⟨100000, [], 1, 1⟩], [⟨0, []⟩], 50, 16, 64, 0, 0, ⟨0, 0, 0, 0, 0⟩⟩
      (by decide)).2.2 ⟨100000, [], 1, 1⟩ [] ⟨0, []⟩ [] rfl rfl (by decide)
      (by decide)).2.1 (by decide)).1

/-! ## Adaptive bitrate controller: `src/control/bitrate.rs` -/

/-- `ControlMessage` (protocol.rs lines 152–175). -/
inductive ControlMessage where
  | SetBitrate (mbps : Nat)
  | SetResolution (width height : Nat)
  | SetFrameRate (fps : Nat)
  | RequestKeyframe
  | Capabilities (max_width max_height : Nat) (codecs : List String) (audio_supported : Bool)
  | Ack (seq : Nat)
deriving DecidableEq, Repr

/-- `BitrateController` (bitrate.rs lines 5–19).  `last_adjustment` is an
`Instant` modelled in milliseconds; the `f64` parameters as ℚ. -/
structure BitrateController where
  current_bitrate : Nat
  min_bitrate : Nat
  max_bitrate : Nat
  last_adjustment : Nat
  adjustment_interval_ms : Nat
  increase_step : Nat
  decrease_factor : ℚ
  rtt_threshold_ms : ℚ
  loss_threshold_percent : ℚ
deriving DecidableEq, Repr

/-- `BitrateController::new` (bitrate.rs lines 22–34), created at time `now`. -/
def BitrateController.mk0 (initial_bitrate min_bitrate max_bitrate now : Nat) :
    BitrateController :=
  ⟨initial_bitrate, min_bitrate, max_bitrate, now, 1000, 1, 3 / 4, 200, 2⟩

/-- The `new_bitrate` computed inside `BitrateController::update`
(bitrate.rs lines 43–56): multiplicative decrease on a poor network
(`(current as f64 * factor) as u32` truncates toward zero, i.e. the floor),
additive increase (wrapping u32 `current + step`) capped at `max` when the
quality score is good, else unchanged. -/
def bitrateCandidate (c : BitrateController) (stats : NetworkStats) : Nat :=
  if c.rtt_threshold_ms < stats.rtt_ms ∨ c.loss_threshold_percent < stats.packet_loss then
    max (((c.current_bitrate : ℚ) * c.decrease_factor).floor.toNat) c.min_bitrate
  else if 8 / 10 < stats.qualityScore then
    min ((c.current_bitrate + c.increase_step) % 2 ^ 32) c.max_bitrate
  else c.current_bitrate

/-- `BitrateController::update` (bitrate.rs lines 37–65) called at time
`now` (ms, `now ≥ last_adjustment`). -/
def BitrateController.update (c : BitrateController) (now : Nat) (stats : NetworkStats) :
    BitrateController × Option ControlMessage :=
  if now - c.last_adjustment < c.adjustment_interval_ms then (c, none)
  else if bitrateCandidate c stats ≠ c.current_bitrate then
    ({ c with current_bitrate := bitrateCandidate c stats, last_adjustment := now },
     some (.SetBitrate (bitrateCandidate c stats)))
  else (c, none)

theorem floor_three_quarters (c : Nat) :
    (((c : ℚ) * (3 / 4)).floor).toNat = 3 * c / 4 := by
  have hfl : ((c : ℚ) * (3 / 4)).floor = ⌊(c : ℚ) * (3 / 4)⌋ := rfl
  have hq : (c : ℚ) * (3 / 4) = ((3 * c : ℤ) : ℚ) / ((4 : ℕ) : ℚ) := by
    push_cast; ring
  rw [hfl, hq, Rat.floor_intCast_div_natCast]
  omega

/-- `update` is a no-op while the adjustment interval has not elapsed
(bitrate.rs lines 39–41). -/
theorem update_recent_none (c : BitrateController) (now : Nat) (stats : NetworkStats)
    (h : now - c.last_adjustment < c.adjustment_interval_ms) :
    c.update now stats = (c, none) := by
  unfold BitrateController.update
  rw [if_pos h]

/-- When `update` emits a message it stamps `last_adjustment := now` and
keeps the interval parameter. -/
theorem update_some_fields (c : BitrateController) (now : Nat) (stats : NetworkStats)
    (m : ControlMessage) (hm : (c.update now stats).2 = some m) :
    (c.update now stats).1.last_adjustment = now ∧
    (c.update now stats).1.adjustment_interval_ms = c.adjustment_interval_ms := by
  unfold BitrateController.update at hm ⊢
  split at hm
  · exact absurd hm (by simp)
  · split at hm
    · rename_i h1 h2
      rw [if_neg h1, if_pos h2]
      exact ⟨rfl, rfl⟩
    · exact absurd hm (by simp)

/-- The claim's update rule, written with the claim's exact arithmetic. -/
def newBitrate (c : BitrateController) (stats : NetworkStats) : Nat :=
  if 200 < stats.rtt_ms ∨ 2 < stats.packet_loss then
    max (3 * c.current_bitrate / 4) c.min_bitrate
  else if 8 / 10 < stats.qualityScore then
    min (c.current_bitrate + 1) c.max_bitrate
  else c.current_bitrate

/-! ## Claim C5 -/

/-- C5 counterexample: `current + 1` is wrapping u32 addition, so at
`current = max = u32::MAX` with a good network the claim's rule gives
`new = min(max, current+1) = current` and no message, but the code computes
`u32::MAX + 1 = 0`, emits `SetBitrate(0)` and leaves the interval
`[min, max] = [2, u32::MAX]`. -/
theorem bitrate_update_counterexample :
    (BitrateController.update ⟨4294967295, 2, 4294967295, 0, 1000, 1, 3 / 4, 200, 2⟩
        1000 ⟨0, 0, 0, 0, 0, 0⟩).2 = some (.SetBitrate 0) ∧
    ¬ (2 : Nat) ≤ 0 := by
  have hcand : bitrateCandidate ⟨4294967295, 2, 4294967295, 0, 1000, 1, 3 / 4, 200, 2⟩
      ⟨0, 0, 0, 0, 0, 0⟩ = 0 := by
    unfold bitrateCandidate
    rw [if_neg (by norm_num),
      if_pos (by norm_num [NetworkStats.qualityScore, min_def, max_def])]
    norm_num
  refine ⟨?_, by omega⟩
  unfold BitrateController.update
  rw [if_neg (by norm_num), if_pos (by rw [hcand]; norm_num), hcand]

/-- C5 (amended): for a controller with the constructed parameters (interval
1 s, step +1, factor 0.75, thresholds 200 ms / 2 %), a current bitrate in
`[min, max]` and no u32 overflow in `current + 1`: `update` returns nothing
within 1 s of the last adjustment; otherwise the new bitrate is
`max(min, floor(0.75·current))` on a poor network (`rtt > 200` or
`loss > 2`), else `min(max, current+1)` when `quality > 0.8`, else
unchanged; `SetBitrate(new)` is emitted (and the stored bitrate and
adjustment time updated) exactly when `new ≠ current`; the result stays in
`[min, max]`; and after an emitted adjustment every call in the next second
returns nothing. -/
theorem bitrate_update_rules (c : BitrateController) (now : Nat) (stats : NetworkStats)
    (hint : c.adjustment_interval_ms = 1000) (hstep : c.increase_step = 1)
    (hfac : c.decrease_factor = 3 / 4) (hrtt : c.rtt_threshold_ms = 200)
    (hloss : c.loss_threshold_percent = 2)
    (hlo : c.min_bitrate ≤ c.current_bitrate) (hhi : c.current_bitrate ≤ c.max_bitrate)
    (hmm : c.min_bitrate ≤ c.max_bitrate) (hnw : c.current_bitrate + 1 < 2 ^ 32) :
    (now - c.last_adjustment < 1000 → c.update now stats = (c, none)) ∧
    (1000 ≤ now - c.last_adjustment →
       ((c.update now stats).1.current_bitrate = newBitrate c stats ∧
        (c.update now stats).2 =
          (if newBitrate c stats ≠ c.current_bitrate
           then some (.SetBitrate (newBitrate c stats)) else none) ∧
        (newBitrate c stats ≠ c.current_bitrate →
           (c.update now stats).1.last_adjustment = now) ∧
        c.min_bitrate ≤ newBitrate c stats ∧ newBitrate c stats ≤ c.max_bitrate)) ∧
    (∀ (t' : Nat) (stats' : NetworkStats) (m : ControlMessage),
       (c.update now stats).2 = some m → t' - now < 1000 →
       ((c.update now stats).1.update t' stats').2 = none) := by
  have hcand : bitrateCandidate c stats = newBitrate c stats := by
    unfold bitrateCandidate newBitrate
    rw [hrtt, hloss, hfac, hstep, floor_three_quarters, Nat.mod_eq_of_lt hnw]
  refine ⟨?_, ?_, ?_⟩
  · intro h
    unfold BitrateController.update
    rw [hint, if_pos h]
  · intro h
    unfold BitrateController.update
    rw [hint, if_neg (by omega), hcand]
    refine ⟨?_, ?_, ?_, ?_⟩
    · by_cases hne : newBitrate c stats ≠ c.current_bitrate
      · rw [if_pos hne]
      · rw [if_neg hne]
        simp only [not_not] at hne
        exact hne.symm
    · by_cases hne : newBitrate c stats ≠ c.current_bitrate
      · rw [if_pos hne, if_pos hne]
      · rw [if_neg hne, if_neg hne]
    · intro hne
      rw [if_pos hne]
    · unfold newBitrate
      split
      · exact ⟨le_max_right _ _, max_le (by omega) hmm⟩
      · split
        · exact ⟨le_min (by omega) hmm, min_le_right _ _⟩
        · exact ⟨hlo, hhi⟩
  · intro t' stats' m hm hlt
    obtain ⟨hla, hin⟩ := update_some_fields c now stats m hm
    rw [update_recent_none ((c.update now stats).1) t' stats'
      (by rw [hla, hin, hint]; omega)]

theorem bitrate_update_rules_witness :
    ((BitrateController.mk0 8 2 20 0).update 1100 ⟨300, 5, 0, 0, 0, 0⟩).2 =
      some (.SetBitrate 6) := by
  have h := (bitrate_update_rules (BitrateController.mk0 8 2 20 0) 1100 ⟨300, 5, 0, 0, 0, 0⟩
    rfl rfl rfl rfl rfl (by decide) (by decide) (by decide) (by decide)).2.1 (by decide)
  have hval : newBitrate (BitrateController.mk0 8 2 20 0) ⟨300, 5, 0, 0, 0, 0⟩ = 6 := by
    unfold newBitrate
    rw [if_pos (by norm_num)]
    rfl
  rw [hval] at h
  simpa using h.2.1

/-! ## FEC coder: `src/network/fec.rs` -/

/-- `FecPacket` (protocol.rs lines 192–208); `index`, `data_count` and
`parity_count` are `u8` values. -/
structure FecPacket where
  block_id : Nat
  index : Nat
  data_count : Nat
  parity_count : Nat
  data : List Nat
deriving DecidableEq, Repr

/-- The external `reed_solomon_erasure::galois_8::ReedSolomon` codec,
embedded as an explicit parameter: `enc` maps the padded data shards to the
parity shards (`ReedSolomon::encode`, which can fail on shape errors) and
`reconstruct` fills in missing shards in place (`ReedSolomon::reconstruct`). -/
structure RSCodec where
  enc : List (List Nat) → Option (List (List Nat))
  reconstruct : List (Option (List Nat)) → Option (List (Option (List Nat)))

/-- `.iter().filter(|s| s.is_some()).count()`. -/
def countSome (l : List (Option (List Nat))) : Nat :=
  (l.filterMap id).length

/-- `Vec::resize(n, 0)`: truncate or zero-pad to length `n`. -/
def resizeZero (n : Nat) (l : List Nat) : List Nat :=
  l.take n ++ List.replicate (n - l.length) 0

/-- `.map(|s| s.len()).max().unwrap_or(0)`. -/
def maxLen (l : List (List Nat)) : Nat :=
  (l.map List.length).foldr max 0

theorem resizeZero_length (n : Nat) (l : List Nat) : (resizeZero n l).length = n := by
  simp only [resizeZero, List.length_append, List.length_take, List.length_replicate]
  omega

theorem resizeZero_of_length_eq (n : Nat) (l : List Nat) (h : l.length = n) :
    resizeZero n l = l := by
  simp [resizeZero, List.take_of_length_le (le_of_eq h), h]

theorem resizeZero_eq_append (n : Nat) (l : List Nat) (h : l.length ≤ n) :
    resizeZero n l = l ++ List.replicate (n - l.length) 0 := by
  simp [resizeZero, List.take_of_length_le h]

theorem le_maxLen (l : List (List Nat)) (x : List Nat) (hx : x ∈ l) :
    x.length ≤ maxLen l := by
  induction l with
  | nil => cases hx
  | cons a rest ih =>
      simp only [maxLen, List.map_cons, List.foldr_cons]
      rcases List.mem_cons.mp hx with h | h
      · subst h; exact le_max_left _ _
      · exact le_trans (ih h) (le_max_right _ _)

theorem maxLen_le (l : List (List Nat)) (m : Nat) (h : ∀ x ∈ l, x.length ≤ m) :
    maxLen l ≤ m := by
  induction l with
  | nil => simp [maxLen]
  | cons a rest ih =>
      simp only [maxLen, List.map_cons, List.foldr_cons]
      exact max_le (h a (by simp)) (ih (fun x hx => h x (by simp [hx])))

theorem countSome_append (l1 l2 : List (Option (List Nat))) :
    countSome (l1 ++ l2) = countSome l1 + countSome l2 := by
  simp [countSome, List.filterMap_append]

theorem countSome_map_map (f : List Nat → List Nat) (l : List (Option (List Nat))) :
    countSome (l.map (Option.map f)) = countSome l := by
  induction l with
  | nil => rfl
  | cons a rest ih =>
      cases a <;> simp [countSome, List.filterMap_cons] at ih ⊢ <;> omega

/-- `FecEncoder` (fec.rs lines 11–19) with the Reed–Solomon codec explicit;
the dead field `max_packet_size` is omitted. -/
structure FecEncoder where
  rs : RSCodec
  data_shards : Nat
  parity_shards : Nat
  current_block_id : Nat
  block_buffer : List Packet

/-- `FecEncoder::new` (fec.rs lines 27–39). -/
def FecEncoder.mk0 (rs : RSCodec) (data_shards parity_shards : Nat) : FecEncoder :=
  ⟨rs, data_shards, parity_shards, 0, []⟩

/-- `FecEncoder::encode_block` (fec.rs lines 58–103): serialize the buffered
packets, pad them all to the block maximum, run Reed–Solomon (an encode
error yields no packets), and tag the parity shards with indices
`k .. k+r-1` (`as u8` casts wrap mod 256). -/
def FecEncoder.encodeBlock (e : FecEncoder) : List FecPacket :=
  let data_packets := e.block_buffer.map Packet.toBytes
  let max_size := maxLen data_packets
  let padded := data_packets.map (resizeZero max_size)
  match e.rs.enc padded with
  | none => []
  | some parity =>
      (List.range parity.length).map fun i =>
        ⟨e.current_block_id, (e.data_shards + i) % 256, e.data_shards % 256,
         e.parity_shards % 256, parity.getD i []⟩

/-- `FecEncoder::encode` (fec.rs lines 43–55): buffer the packet; once the
buffer reaches `data_shards` entries, emit the block's parity packets,
clear the buffer and bump the (wrapping u32) block id. -/
def FecEncoder.encode (e : FecEncoder) (p : Packet) : FecEncoder × List FecPacket :=
  let e1 := { e with block_buffer := e.block_buffer ++ [p] }
  if e.data_shards ≤ e1.block_buffer.length then
    ({ e1 with block_buffer := [], current_block_id := (e1.current_block_id + 1) % 2 ^ 32 },
     e1.encodeBlock)
  else (e1, [])

/-- Feed a list of packets through the encoder, concatenating the emitted
FEC packets. -/
def FecEncoder.encodeAll (e : FecEncoder) (ps : List Packet) :
    FecEncoder × List FecPacket :=
  ps.foldl (fun acc p =>
    ((acc.1.encode p).1, acc.2 ++ (acc.1.encode p).2)) (e, [])

/-- `FecBlock` (fec.rs lines 134–143); `created_at` only feeds the timed
cleanup, which is outside the claims, and is omitted. -/
structure FecBlock where
  data_shards : List (Option (List Nat))
  parity_shards : List (Option (List Nat))
  data_count : Nat
  parity_count : Nat
  recovered : Bool
deriving DecidableEq, Repr

/-- `FecDecoder` (fec.rs lines 126–132); the `HashMap<u32, FecBlock>` is a
function from block ids, `last_cleanup` omitted with the cleanup. -/
structure FecDecoder where
  rs : RSCodec
  data_shards : Nat
  parity_shards : Nat
  blocks : Nat → Option FecBlock

/-- `FecDecoder::new` (fec.rs lines 147–158). -/
def FecDecoder.mk0 (rs : RSCodec) (data_shards parity_shards : Nat) : FecDecoder :=
  ⟨rs, data_shards, parity_shards, fun _ => none⟩

def FecDecoder.setBlock (d : FecDecoder) (block_id : Nat) (b : FecBlock) : FecDecoder :=
  { d with blocks := fun j => if j = block_id then some b else d.blocks j }

/-- The extraction loop of `try_recover` (fec.rs lines 277–288): every
position among the first `data_count` shards whose stored shard was `None`
and whose reconstructed shard parses as a `Packet` contributes that packet,
in index order. -/
def collectRecovered (orig : List (Option (List Nat)))
    (full : List (Option (List Nat))) : List Packet :=
  (List.range full.length).filterMap fun i =>
    match orig.getD i (some []), full.getD i none with
    | none, some bytes =>
        match Packet.fromBytes bytes with
        | .ok p => some p
        | .error _ => none
    | _, _ => none

/-- `FecDecoder::try_recover` (fec.rs lines 210–297). -/
def FecDecoder.tryRecover (d : FecDecoder) (block_id : Nat) :
    FecDecoder × Option (List Packet) :=
  match d.blocks block_id with
  | none => (d, none)
  | some block =>
      if block.recovered then (d, none)
      else if countSome block.data_shards + countSome block.parity_shards <
          block.data_count then (d, none)
      else if countSome block.data_shards = block.data_count then
        (d.setBlock block_id { block with recovered := true }, none)
      else
        let max_size := maxLen ((block.data_shards ++ block.parity_shards).filterMap id)
        match d.rs.reconstruct ((block.data_shards ++ block.parity_shards).map
            (Option.map (resizeZero max_size))) with
        | none => (d, none)
        | some full =>
            let recovered_packets :=
              collectRecovered block.data_shards (full.take block.data_count)
            (d.setBlock block_id { block with recovered := true },
             if recovered_packets.isEmpty then none else some recovered_packets)

/-- `FecDecoder::add_data_packet` (fec.rs lines 161–182). -/
def FecDecoder.addDataPacket (d : FecDecoder) (seq : Nat) (data : List Nat) :
    FecDecoder × Option (List Packet) :=
  let block_id := seq / d.data_shards
  let index := seq % d.data_shards
  let block := (d.blocks block_id).getD
    ⟨List.replicate d.data_shards none, List.replicate d.parity_shards none,
     d.data_shards % 256, d.parity_shards % 256, false⟩
  let block1 :=
    if index < d.data_shards then
      { block with data_shards := block.data_shards.set index (some data) }
    else block
  (d.setBlock block_id block1).tryRecover block_id

/-- `FecDecoder::add_fec_packet` (fec.rs lines 185–207).  The parity index
`fec_packet.index as usize - fec_packet.data_count as usize` wraps far past
any vector length when `index < data_count`, so the store is additionally
guarded by `data_count ≤ index`. -/
def FecDecoder.addFecPacket (d : FecDecoder) (fp : FecPacket) :
    FecDecoder × Option (List Packet) :=
  let block := (d.blocks fp.block_id).getD
    ⟨List.replicate fp.data_count none, List.replicate fp.parity_count none,
     fp.data_count, fp.parity_count, false⟩
  let block1 :=
    if fp.data_count ≤ fp.index ∧ fp.index - fp.data_count < block.parity_shards.length then
      { block with parity_shards :=
          block.parity_shards.set (fp.index - fp.data_count) (some fp.data) }
    else block
  (d.setBlock fp.block_id block1).tryRecover fp.block_id

theorem setBlock_blocks_self (d : FecDecoder) (b : Nat) (blk : FecBlock) :
    (d.setBlock b blk).blocks b = some blk := by
  simp [FecDecoder.setBlock]

theorem setBlock_blocks_other (d : FecDecoder) (b b' : Nat) (blk : FecBlock)
    (h : b' ≠ b) : (d.setBlock b blk).blocks b' = d.blocks b' := by
  simp [FecDecoder.setBlock, h]

/-- `try_recover` on a block whose `recovered` flag is set returns nothing
and changes nothing (fec.rs lines 213–216). -/
theorem tryRecover_recovered (d : FecDecoder) (b : Nat) (blk : FecBlock)
    (hb : d.blocks b = some blk) (hrec : blk.recovered = true) :
    d.tryRecover b = (d, none) := by
  unfold FecDecoder.tryRecover
  rw [hb]
  simp [hrec]

/-! ## Claim C7 -/

/-- C7: once a block's `recovered` flag is set, every later
`add_data_packet` or `add_fec_packet` call routed to that block returns no
recovered packets and leaves the flag set, so reprocessing the same shard
set recovers nothing new. -/
theorem fec_recovered_once (d : FecDecoder) (b : Nat) (blk : FecBlock)
    (hb : d.blocks b = some blk) (hrec : blk.recovered = true) :
    (∀ seq data, seq / d.data_shards = b →
       (d.addDataPacket seq data).2 = none ∧
       ∃ blk', (d.addDataPacket seq data).1.blocks b = some blk' ∧
         blk'.recovered = true) ∧
    (∀ fp : FecPacket, fp.block_id = b →
       (d.addFecPacket fp).2 = none ∧
       ∃ blk', (d.addFecPacket fp).1.blocks b = some blk' ∧
         blk'.recovered = true) := by
  constructor
  · intro seq data hsb
    unfold FecDecoder.addDataPacket
    simp only [hsb, hb, Option.getD_some]
    set blk1 := if seq % d.data_shards < d.data_shards then
      { blk with data_shards := blk.data_shards.set (seq % d.data_shards) (some data) }
      else blk with hblk1
    have hrec1 : blk1.recovered = true := by
      rw [hblk1]
      split <;> exact hrec
    rw [tryRecover_recovered _ b blk1 (setBlock_blocks_self d b blk1) hrec1]
    exact ⟨rfl, blk1, setBlock_blocks_self d b blk1, hrec1⟩
  · intro fp hfb
    unfold FecDecoder.addFecPacket
    simp only [hfb, hb, Option.getD_some]
    set blk1 := if fp.data_count ≤ fp.index ∧
        fp.index - fp.data_count < blk.parity_shards.length then
      { blk with parity_shards :=
          blk.parity_shards.set (fp.index - fp.data_count) (some fp.data) }
      else blk with hblk1
    have hrec1 : blk1.recovered = true := by
      rw [hblk1]
      split <;> exact hrec
    rw [tryRecover_recovered _ b blk1 (setBlock_blocks_self d b blk1) hrec1]
    exact ⟨rfl, blk1, setBlock_blocks_self d b blk1, hrec1⟩

theorem fec_recovered_once_witness :
    (((FecDecoder.mk0 ⟨fun _ => none, fun _ => none⟩ 2 1).setBlock 0
        ⟨[none, none], [none], 2, 1, true⟩).addDataPacket 0 [7]).2 = none :=
  ((fec_recovered_once
      ((FecDecoder.mk0 ⟨fun _ => none, fun _ => none⟩ 2 1).setBlock 0
        ⟨[none, none], [none], 2, 1, true⟩)
      0 ⟨[none, none], [none], 2, 1, true⟩ rfl rfl).1 0 [7] rfl).1

/-! ## The C2 recovery scenario -/

/-- One decoder insertion in the recovery scenario: data shard `i` (as
`add_data_packet(seq i, to_bytes(packet i))`) or parity shard `j` (as
`add_fec_packet` of the encoder's `j`-th parity packet). -/
inductive FecEv where
  | dataEv (i : Nat)
  | parEv (j : Nat)
deriving DecidableEq, Repr

def ValidFecEv (k r : Nat) : FecEv → Prop
  | .dataEv i => i < k
  | .parEv j => j < r

instance : (k r : Nat) → (ev : FecEv) → Decidable (ValidFecEv k r ev)
  | _, _, .dataEv _ => inferInstanceAs (Decidable (_ < _))
  | _, _, .parEv _ => inferInstanceAs (Decidable (_ < _))

def applyFecEv (ps : List Packet) (fecs : List FecPacket) (d : FecDecoder) :
    FecEv → FecDecoder × Option (List Packet)
  | .dataEv i => d.addDataPacket (ps.getD i default).seq (Packet.toBytes (ps.getD i default))
  | .parEv j => d.addFecPacket (fecs.getD j ⟨0, 0, 0, 0, []⟩)

/-- Feed the events left to right, concatenating every recovered batch. -/
def runFecEvents (ps : List Packet) (fecs : List FecPacket) (d : FecDecoder)
    (evs : List FecEv) : FecDecoder × List Packet :=
  evs.foldl (fun acc ev =>
    ((applyFecEv ps fecs acc.1 ev).1,
     acc.2 ++ ((applyFecEv ps fecs acc.1 ev).2.getD []))) (d, [])

/-- The data-shard slots of block 0 after the insertions `pre`. -/
def dsOf (k : Nat) (ps : List Packet) (pre : List FecEv) : List (Option (List Nat)) :=
  (List.range k).map fun i =>
    if FecEv.dataEv i ∈ pre then some (Packet.toBytes (ps.getD i default)) else none

/-- The parity-shard slots of block 0 after the insertions `pre`. -/
def psOf (r : Nat) (parity : List (List Nat)) (pre : List FecEv) :
    List (Option (List Nat)) :=
  (List.range r).map fun j => if FecEv.parEv j ∈ pre then some (parity.getD j []) else none

/-- Block 0 of the decoder after the insertions `pre`. -/
def blockOf (k r : Nat) (ps : List Packet) (parity : List (List Nat))
    (pre : List FecEv) : FecBlock :=
  ⟨dsOf k ps pre, psOf r parity pre, k, r, decide (k ≤ pre.length)⟩

/-- The original packets of the data shards not yet inserted in `pre`. -/
def missingPackets (k : Nat) (ps : List Packet) (pre : List FecEv) : List Packet :=
  ((List.range k).filter (fun i => FecEv.dataEv i ∉ pre)).map fun i => ps.getD i default

/-- The decoder-state invariant of the recovery scenario after the
insertions `pre`. -/
def DecInv (k r : Nat) (rs : RSCodec) (ps : List Packet) (parity : List (List Nat))
    (pre : List FecEv) (d : FecDecoder) : Prop :=
  d.rs = rs ∧ d.data_shards = k ∧ d.parity_shards = r ∧
  (∀ b, b ≠ 0 → d.blocks b = none) ∧
  d.blocks 0 = (if pre = [] then none else some (blockOf k r ps parity pre)) ∧
  countSome (dsOf k ps pre) + countSome (psOf r parity pre) = pre.length

/-! ### List helper lemmas for the scenario -/

theorem filterMap_ite {α β : Type} (l : List α) (p : α → Prop) [DecidablePred p]
    (f : α → β) :
    (l.filterMap fun a => if p a then some (f a) else none) =
      (l.filter fun a => decide (p a)).map f := by
  induction l with
  | nil => rfl
  | cons a rest ih =>
      by_cases h : p a <;> simp [List.filterMap_cons, List.filter_cons, h, ih]

theorem length_filter_add_not {α : Type} (l : List α) (p : α → Bool) :
    (l.filter p).length + (l.filter fun a => !(p a)).length = l.length := by
  induction l with
  | nil => rfl
  | cons a rest ih =>
      cases h : p a <;> simp [List.filter_cons, h] <;> omega

theorem getD_map_range {β : Type} (n j : Nat) (f : Nat → β) (d : β) (h : j < n) :
    ((List.range n).map f).getD j d = f j := by
  rw [List.getD_eq_getElem _ _ (by simpa using h)]
  simp

theorem dsOf_length (k : Nat) (ps : List Packet) (pre : List FecEv) :
    (dsOf k ps pre).length = k := by simp [dsOf]

theorem psOf_length (r : Nat) (parity : List (List Nat)) (pre : List FecEv) :
    (psOf r parity pre).length = r := by simp [psOf]

theorem dsOf_getD (k : Nat) (ps : List Packet) (pre : List FecEv) (i : Nat) (h : i < k) :
    (dsOf k ps pre).getD i none =
      if FecEv.dataEv i ∈ pre then some (Packet.toBytes (ps.getD i default)) else none :=
  getD_map_range k i _ none h

theorem countSome_dsOf (k : Nat) (ps : List Packet) (pre : List FecEv) :
    countSome (dsOf k ps pre) =
      ((List.range k).filter fun i => decide (FecEv.dataEv i ∈ pre)).length := by
  unfold countSome dsOf
  rw [List.filterMap_map, Function.id_comp,
    filterMap_ite (List.range k) (fun i => FecEv.dataEv i ∈ pre)
      (fun i => Packet.toBytes (ps.getD i default))]
  simp

theorem countSome_psOf (r : Nat) (parity : List (List Nat)) (pre : List FecEv) :
    countSome (psOf r parity pre) =
      ((List.range r).filter fun j => decide (FecEv.parEv j ∈ pre)).length := by
  unfold countSome psOf
  rw [List.filterMap_map, Function.id_comp,
    filterMap_ite (List.range r) (fun j => FecEv.parEv j ∈ pre)
      (fun j => parity.getD j [])]
  simp

theorem countSome_dsOf_add_missing (k : Nat) (ps : List Packet) (pre : List FecEv) :
    countSome (dsOf k ps pre) + (missingPackets k ps pre).length = k := by
  rw [countSome_dsOf, missingPackets, List.length_map]
  have h := length_filter_add_not (List.range k)
    (fun i => decide (FecEv.dataEv i ∈ pre))
  simpa using h

theorem dsOf_nil (k : Nat) (ps : List Packet) : dsOf k ps [] = List.replicate k none := by
  apply List.ext_getElem
  · simp [dsOf]
  · intro i h1 h2
    simp [dsOf]

theorem psOf_nil (r : Nat) (parity : List (List Nat)) :
    psOf r parity [] = List.replicate r none := by
  apply List.ext_getElem
  · simp [psOf]
  · intro j h1 h2
    simp [psOf]

theorem dsOf_append_data (k : Nat) (ps : List Packet) (pre : List FecEv) (i0 : Nat)
    (h : i0 < k) :
    dsOf k ps (pre ++ [FecEv.dataEv i0]) =
      (dsOf k ps pre).set i0 (some (Packet.toBytes (ps.getD i0 default))) := by
  apply List.ext_getElem
  · simp [dsOf]
  · intro i h1 h2
    simp only [dsOf, List.getElem_map, List.getElem_range, List.getElem_set]
    by_cases hi : i0 = i
    · subst hi
      simp
    · have hne : i ≠ i0 := fun hcon => hi hcon.symm
      rw [if_neg hi]
      simp [List.mem_append, hne]

theorem dsOf_append_par (k : Nat) (ps : List Packet) (pre : List FecEv) (j : Nat) :
    dsOf k ps (pre ++ [FecEv.parEv j]) = dsOf k ps pre := by
  unfold dsOf
  apply List.map_congr_left
  intro i _
  simp [List.mem_append]

theorem psOf_append_par (r : Nat) (parity : List (List Nat)) (pre : List FecEv)
    (j0 : Nat) (h : j0 < r) :
    psOf r parity (pre ++ [FecEv.parEv j0]) =
      (psOf r parity pre).set j0 (some (parity.getD j0 [])) := by
  apply List.ext_getElem
  · simp [psOf]
  · intro j h1 h2
    simp only [psOf, List.getElem_map, List.getElem_range, List.getElem_set]
    by_cases hj : j0 = j
    · subst hj
      simp
    · have hne : j ≠ j0 := fun hcon => hj hcon.symm
      rw [if_neg hj]
      simp [List.mem_append, hne]

theorem psOf_append_data (r : Nat) (parity : List (List Nat)) (pre : List FecEv)
    (i : Nat) :
    psOf r parity (pre ++ [FecEv.dataEv i]) = psOf r parity pre := by
  unfold psOf
  apply List.map_congr_left
  intro j _
  simp [List.mem_append]

theorem countSome_set (l : List (Option (List Nat))) (i : Nat) (v : List Nat)
    (hl : i < l.length) (hn : l.getD i none = none) :
    countSome (l.set i (some v)) = countSome l + 1 := by
  induction l generalizing i with
  | nil => simp at hl
  | cons a rest ih =>
      cases i with
      | zero =>
          have ha : a = none := by simpa using hn
          subst ha
          simp [countSome, List.filterMap_cons]
      | succ n =>
          have h1 : n < rest.length := by simpa using hl
          have h2 : rest.getD n none = none := by simpa using hn
          have := ih n h1 h2
          cases a with
          | none => simpa [countSome, List.filterMap_cons] using this
          | some w =>
              simp only [List.set_cons_succ, countSome, List.filterMap_cons] at this ⊢
              simp [this]

/-! ### Encoder facts for the scenario -/

theorem encodeAll_partial (rs : RSCodec) (k r : Nat) :
    ∀ (suffix buf : List Packet) (out : List FecPacket) (bid : Nat),
      buf.length + suffix.length = k → 1 ≤ suffix.length →
      (suffix.foldl (fun acc p => ((acc.1.encode p).1, acc.2 ++ (acc.1.encode p).2))
        ((⟨rs, k, r, bid, buf⟩ : FecEncoder), out)).2 =
        out ++ FecEncoder.encodeBlock ⟨rs, k, r, bid, buf ++ suffix⟩ := by
  intro suffix
  induction suffix with
  | nil =>
      intro buf out bid h1 h2
      simp at h2
  | cons p tail ih =>
      intro buf out bid h1 h2
      simp only [List.foldl_cons]
      rcases List.eq_nil_or_concat' tail with ht | _
      · subst ht
        simp only [List.length_cons, List.length_nil] at h1
        have henc : (⟨rs, k, r, bid, buf⟩ : FecEncoder).encode p =
            (⟨rs, k, r, (bid + 1) % 2 ^ 32, []⟩,
             FecEncoder.encodeBlock ⟨rs, k, r, bid, buf ++ [p]⟩) := by
          unfold FecEncoder.encode
          rw [if_pos (by simp; omega)]
        simp [henc]
      · have h2' : 1 ≤ tail.length := by
          cases tail with
          | nil => simp_all
          | cons x xs => simp
        have henc : (⟨rs, k, r, bid, buf⟩ : FecEncoder).encode p =
            ((⟨rs, k, r, bid, buf ++ [p]⟩ : FecEncoder), []) := by
          unfold FecEncoder.encode
          rw [if_neg (by simp at h1 ⊢; omega)]
        simp only [henc, List.append_nil]
        have := ih (buf ++ [p]) out bid (by simp at h1 ⊢; omega) h2'
        rw [this, List.append_assoc]
        simp

theorem encodeAll_spec (rs : RSCodec) (k r : Nat) (ps : List Packet)
    (h : ps.length = k) (hk : 1 ≤ k) :
    (FecEncoder.encodeAll (FecEncoder.mk0 rs k r) ps).2 =
      FecEncoder.encodeBlock ⟨rs, k, r, 0, ps⟩ := by
  unfold FecEncoder.encodeAll FecEncoder.mk0
  have hrun := encodeAll_partial rs k r ps [] [] 0 (by simpa using h) (by omega)
  simpa using hrun

theorem encodeBlock_spec (rs : RSCodec) (k r bid : Nat) (ps : List Packet)
    (parity : List (List Nat))
    (henc : rs.enc ((ps.map Packet.toBytes).map
      (resizeZero (maxLen (ps.map Packet.toBytes)))) = some parity) :
    FecEncoder.encodeBlock ⟨rs, k, r, bid, ps⟩ =
      (List.range parity.length).map fun i =>
        ⟨bid, (k + i) % 256, k % 256, r % 256, parity.getD i []⟩ := by
  unfold FecEncoder.encodeBlock
  simp only [henc]

/-! ### The Reed–Solomon contract -/

/-- A mask of `full`: entrywise `none` or the original shard. -/
def IsMaskOf (mask : List (Option (List Nat))) (full : List (List Nat)) : Prop :=
  List.Forall₂ (fun m s => m = none ∨ m = some s) mask full

/-- The contract the `reed_solomon_erasure` crate documents for its
systematic MDS code with `k` data and `r` parity shards: encoding `k`
equal-length shards succeeds with `r` parity shards of that length, and
reconstruction restores every shard of a block from any `k` of its `k + r`
shards. -/
structure RSSpec (k r : Nat) (rs : RSCodec) : Prop where
  enc_shape : ∀ (data : List (List Nat)) (L : Nat), data.length = k →
    (∀ s ∈ data, s.length = L) →
    ∃ parity, rs.enc data = some parity ∧ parity.length = r ∧
      ∀ s ∈ parity, s.length = L
  rec_correct : ∀ (data parity : List (List Nat)) (L : Nat)
    (mask : List (Option (List Nat))), data.length = k →
    (∀ s ∈ data, s.length = L) → rs.enc data = some parity →
    IsMaskOf mask (data ++ parity) → k ≤ countSome mask →
    rs.reconstruct mask = some ((data ++ parity).map some)

/-- The serialized packets of the block (`encode_block`'s `data_packets`). -/
def blockBytes (ps : List Packet) : List (List Nat) := ps.map Packet.toBytes

/-- The block's maximum shard size (`encode_block`'s `max_size`). -/
def blockMS (ps : List Packet) : Nat := maxLen (blockBytes ps)

/-- The zero-padded data shards of the block. -/
def blockPadded (ps : List Packet) : List (List Nat) :=
  (blockBytes ps).map (resizeZero (blockMS ps))

/-- The C2 scenario: a full block of `k` well-formed packets with sequence
numbers `0 .. k-1` and an MDS codec for `k` data / `r` parity shards,
`k + r ≤ 256` (the GF(2⁸) limit, which also keeps the `u8` casts exact). -/
structure Scenario (k r : Nat) (rs : RSCodec) (ps : List Packet) : Prop where
  hspec : RSSpec k r rs
  hk : 1 ≤ k
  hr : 1 ≤ r
  hkr : k + r ≤ 256
  hlen : ps.length = k
  hwf : ∀ p ∈ ps, p.Wf
  hseq : ∀ i, i < k → (ps.getD i default).seq = i

theorem blockPadded_length (ps : List Packet) : (blockPadded ps).length = ps.length := by
  simp [blockPadded, blockBytes]

theorem blockPadded_entry_length (ps : List Packet) :
    ∀ s ∈ blockPadded ps, s.length = blockMS ps := by
  intro s hs
  simp only [blockPadded, List.mem_map] at hs
  obtain ⟨t, _, rfl⟩ := hs
  exact resizeZero_length _ _

theorem toBytes_mem_blockBytes (ps : List Packet) (i : Nat) (h : i < ps.length) :
    Packet.toBytes (ps.getD i default) ∈ blockBytes ps := by
  rw [List.getD_eq_getElem _ _ h]
  exact List.mem_map_of_mem _ (List.getElem_mem h)

theorem toBytes_le_blockMS (ps : List Packet) (i : Nat) (h : i < ps.length) :
    (Packet.toBytes (ps.getD i default)).length ≤ blockMS ps :=
  le_maxLen _ _ (toBytes_mem_blockBytes ps i h)

theorem blockPadded_getD (ps : List Packet) (i : Nat) (h : i < ps.length) :
    (blockPadded ps).getD i [] =
      resizeZero (blockMS ps) (Packet.toBytes (ps.getD i default)) := by
  rw [List.getD_eq_getElem _ _ (by rw [blockPadded_length]; exact h),
    List.getD_eq_getElem _ _ h]
  simp [blockPadded, blockBytes]

/-- Parsing a padded data shard recovers the original packet. -/
theorem fromBytes_blockPadded (ps : List Packet) (i : Nat) (h : i < ps.length)
    (hwf : ∀ p ∈ ps, p.Wf) :
    Packet.fromBytes ((blockPadded ps).getD i []) = .ok (ps.getD i default) := by
  rw [blockPadded_getD ps i h,
    resizeZero_eq_append _ _ (toBytes_le_blockMS ps i h)]
  apply Packet.fromBytes_toBytes_append
  rw [List.getD_eq_getElem _ _ h]
  exact hwf _ (List.getElem_mem h)

/-! ### `try_recover` branch behaviour -/

/-- Fewer than `data_count` shards: nothing happens (fec.rs lines 223–226). -/
theorem tryRecover_notEnough (d : FecDecoder) (ds psh : List (Option (List Nat)))
    (k r : Nat) (hblk : d.blocks 0 = some ⟨ds, psh, k, r, false⟩)
    (hcnt : countSome ds + countSome psh < k) :
    d.tryRecover 0 = (d, none) := by
  unfold FecDecoder.tryRecover
  rw [hblk]
  dsimp only
  rw [if_neg (by simp), if_pos hcnt]

/-- All data shards present: the block is marked recovered with no output
(fec.rs lines 228–232). -/
theorem tryRecover_allData (d : FecDecoder) (ds psh : List (Option (List Nat)))
    (k r : Nat) (hblk : d.blocks 0 = some ⟨ds, psh, k, r, false⟩)
    (hge : k ≤ countSome ds + countSome psh) (hall : countSome ds = k) :
    d.tryRecover 0 = (d.setBlock 0 ⟨ds, psh, k, r, true⟩, none) := by
  unfold FecDecoder.tryRecover
  rw [hblk]
  dsimp only
  rw [if_neg (by simp), if_neg (not_lt.mpr hge), if_pos hall]

/-- The reconstruction branch at the trigger insertion: `k` shards present,
at least one data shard missing.  The block is reconstructed, marked
recovered, and exactly the missing data packets are returned. -/
theorem tryRecover_trigger (k r : Nat) (rs : RSCodec) (ps : List Packet)
    (parity : List (List Nat)) (sc : Scenario k r rs ps)
    (henc : rs.enc (blockPadded ps) = some parity)
    (hplen : parity.length = r)
    (hpL : ∀ s ∈ parity, s.length = blockMS ps)
    (pre : List FecEv)
    (hcnt : countSome (dsOf k ps pre) + countSome (psOf r parity pre) = k)
    (hmiss : countSome (dsOf k ps pre) < k)
    (d : FecDecoder) (hrs : d.rs = rs)
    (hblk : d.blocks 0 = some ⟨dsOf k ps pre, psOf r parity pre, k, r, false⟩) :
    d.tryRecover 0 =
      (d.setBlock 0 ⟨dsOf k ps pre, psOf r parity pre, k, r, true⟩,
       some (missingPackets k ps pre)) := by
  have hms : maxLen ((dsOf k ps pre ++ psOf r parity pre).filterMap id) = blockMS ps := by
    apply le_antisymm
    · apply maxLen_le
      intro x hx
      rw [List.mem_filterMap] at hx
      obtain ⟨o, ho, hox⟩ := hx
      simp only [id_eq] at hox
      subst hox
      rcases List.mem_append.mp ho with hd | hp
      · simp only [dsOf, List.mem_map, List.mem_range] at hd
        obtain ⟨i, hik, hoi⟩ := hd
        by_cases hm : FecEv.dataEv i ∈ pre
        · rw [if_pos hm] at hoi
          have hx2 : x = Packet.toBytes (ps.getD i default) := by
            exact (Option.some.injEq _ _ ▸ hoi).symm
          rw [hx2]
          exact toBytes_le_blockMS ps i (by rw [sc.hlen]; exact hik)
        · rw [if_neg hm] at hoi
          cases hoi
      · simp only [psOf, List.mem_map, List.mem_range] at hp
        obtain ⟨j, hjr, hoj⟩ := hp
        by_cases hm : FecEv.parEv j ∈ pre
        · rw [if_pos hm] at hoj
          have hx2 : x = parity.getD j [] := by
            exact (Option.some.injEq _ _ ▸ hoj).symm
          rw [hx2]
          have hmem : parity.getD j [] ∈ parity := by
            rw [List.getD_eq_getElem _ _ (by rw [hplen]; exact hjr)]
            exact List.getElem_mem _
          rw [hpL _ hmem]
        · rw [if_neg hm] at hoj
          cases hoj
    · have hpar_pos : 1 ≤ countSome (psOf r parity pre) := by omega
      have hex : ∃ j, j < r ∧ FecEv.parEv j ∈ pre := by
        by_contra hno
        push_neg at hno
        have hzero : countSome (psOf r parity pre) = 0 := by
          rw [countSome_psOf]
          have hnil : ((List.range r).filter fun j => decide (FecEv.parEv j ∈ pre)) = [] := by
            apply List.filter_eq_nil_iff.mpr
            intro j hj
            simp only [List.mem_range] at hj
            simpa using hno j hj
          rw [hnil]
          rfl
        omega
      obtain ⟨j, hjr, hjm⟩ := hex
      have hx : parity.getD j [] ∈ (dsOf k ps pre ++ psOf r parity pre).filterMap id := by
        rw [List.mem_filterMap]
        refine ⟨some (parity.getD j []), ?_, rfl⟩
        apply List.mem_append_right
        simp only [psOf, List.mem_map, List.mem_range]
        exact ⟨j, hjr, by rw [if_pos hjm]⟩
      have hlenx : (parity.getD j []).length = blockMS ps := by
        apply hpL
        rw [List.getD_eq_getElem _ _ (by rw [hplen]; exact hjr)]
        exact List.getElem_mem _
      exact hlenx ▸ le_maxLen _ _ hx
  have hmask : IsMaskOf ((dsOf k ps pre ++ psOf r parity pre).map
      (Option.map (resizeZero (blockMS ps)))) (blockPadded ps ++ parity) := by
    rw [IsMaskOf, List.forall₂_iff_get]
    constructor
    · simp [dsOf_length, psOf_length, blockPadded_length, sc.hlen, hplen]
    · intro t h1 h2
      simp only [List.get_eq_getElem]
      by_cases htk : t < k
      · rw [List.getElem_map,
          List.getElem_append_left (by rw [dsOf_length]; exact htk),
          List.getElem_append_left (by rw [blockPadded_length, sc.hlen]; exact htk)]
        simp only [dsOf, List.getElem_map, List.getElem_range]
        by_cases hm : FecEv.dataEv t ∈ pre
        · rw [if_pos hm]
          right
          simp only [Option.map_some']
          have hbt : t < (blockPadded ps).length := by
            rw [blockPadded_length, sc.hlen]; exact htk
          rw [← List.getD_eq_getElem _ ([] : List Nat) hbt,
            blockPadded_getD ps t (by rw [sc.hlen]; exact htk)]
        · rw [if_neg hm]
          left
          rfl
      · have hdl : (dsOf k ps pre).length ≤ t := by rw [dsOf_length]; omega
        have hbl : (blockPadded ps).length ≤ t := by rw [blockPadded_length, sc.hlen]; omega
        rw [List.getElem_map, List.getElem_append_right hdl,
          List.getElem_append_right hbl]
        simp only [psOf, dsOf_length, blockPadded_length, sc.hlen, List.getElem_map,
          List.getElem_range]
        by_cases hm : FecEv.parEv (t - k) ∈ pre
        · rw [if_pos hm]
          right
          simp only [Option.map_some']
          have hjr : t - k < parity.length := by
            rw [hplen]
            have hlen2 := h2
            simp only [List.length_append, blockPadded_length, sc.hlen, hplen] at hlen2
            omega
          have hlenp : (parity.getD (t - k) []).length = blockMS ps := by
            apply hpL
            rw [List.getD_eq_getElem _ _ hjr]
            exact List.getElem_mem _
          rw [resizeZero_of_length_eq _ _ hlenp, List.getD_eq_getElem _ _ hjr]
        · rw [if_neg hm]
          left
          rfl
  have hcount : k ≤ countSome ((dsOf k ps pre ++ psOf r parity pre).map
      (Option.map (resizeZero (blockMS ps)))) := by
    rw [countSome_map_map, countSome_append]
    omega
  have hrec := sc.hspec.rec_correct (blockPadded ps) parity (blockMS ps)
    ((dsOf k ps pre ++ psOf r parity pre).map (Option.map (resizeZero (blockMS ps))))
    (by rw [blockPadded_length, sc.hlen]) (blockPadded_entry_length ps) henc hmask hcount
  have hcollect : collectRecovered (dsOf k ps pre)
      (((blockPadded ps ++ parity).map some).take k) = missingPackets k ps pre := by
    have htake : ((blockPadded ps ++ parity).map some).take k = (blockPadded ps).map some := by
      rw [List.map_append,
        List.take_left' (by rw [List.length_map, blockPadded_length, sc.hlen])]
    rw [htake]
    unfold collectRecovered missingPackets
    rw [List.length_map, blockPadded_length, sc.hlen]
    rw [← filterMap_ite (List.range k) (fun i => FecEv.dataEv i ∉ pre)
      (fun i => ps.getD i default)]
    apply List.filterMap_congr
    intro i hi
    rw [List.mem_range] at hi
    have hds : (dsOf k ps pre).getD i (some []) =
        if FecEv.dataEv i ∈ pre then some (Packet.toBytes (ps.getD i default)) else none :=
      getD_map_range k i _ _ hi
    have hfull : ((blockPadded ps).map some).getD i none =
        some ((blockPadded ps).getD i []) := by
      rw [List.getD_eq_getElem _ _ (by rw [List.length_map, blockPadded_length, sc.hlen]; exact hi),
        List.getElem_map,
        List.getD_eq_getElem _ _ (by rw [blockPadded_length, sc.hlen]; exact hi)]
    rw [hds, hfull]
    by_cases hm : FecEv.dataEv i ∈ pre
    · rw [if_pos hm, if_neg (by simp [hm])]
    · rw [if_neg hm, if_pos hm]
      have hparse := fromBytes_blockPadded ps i (by rw [sc.hlen]; exact hi) sc.hwf
      dsimp only
      rw [hparse]
  have hne : (missingPackets k ps pre).isEmpty = false := by
    have hsum := countSome_dsOf_add_missing k ps pre
    rw [List.isEmpty_eq_false_iff_exists_mem]
    have hlen1 : 1 ≤ (missingPackets k ps pre).length := by omega
    cases hmp : missingPackets k ps pre with
    | nil => rw [hmp] at hlen1; simp at hlen1
    | cons a rest => exact ⟨a, by simp⟩
  unfold FecDecoder.tryRecover
  rw [hblk]
  dsimp only
  rw [if_neg (by simp), if_neg (by omega),
    if_neg (by omega : ¬ countSome (dsOf k ps pre) = k)]
  rw [hms, hrs, hrec]
  dsimp only
  rw [hcollect, hne]
  simp

theorem countSome_replicate_none (n : Nat) :
    countSome (List.replicate n none) = 0 := by
  induction n with
  | zero => rfl
  | succ m ih => simpa [countSome, List.replicate_succ, List.filterMap_cons] using ih

/-- The `try_recover` call that ends every insertion, analyzed against the
invariant: `pre'` is the new insertion history, `n` its previous length. -/
theorem fec_step_recover (k r : Nat) (rs : RSCodec) (ps : List Packet)
    (parity : List (List Nat)) (sc : Scenario k r rs ps)
    (henc : rs.enc (blockPadded ps) = some parity)
    (hplen : parity.length = r)
    (hpL : ∀ s ∈ parity, s.length = blockMS ps)
    (pre' : List FecEv) (n : Nat) (hlen' : pre'.length = n + 1)
    (hcnt' : countSome (dsOf k ps pre') + countSome (psOf r parity pre') = n + 1)
    (d1 : FecDecoder) (hrs1 : d1.rs = rs) (hds1 : d1.data_shards = k)
    (hps1 : d1.parity_shards = r) (hoth1 : ∀ b, b ≠ 0 → d1.blocks b = none)
    (hb1 : d1.blocks 0 =
      some ⟨dsOf k ps pre', psOf r parity pre', k, r, decide (k ≤ n)⟩) :
    DecInv k r rs ps parity pre' (d1.tryRecover 0).1 ∧
    (d1.tryRecover 0).2.getD [] =
      (if n + 1 = k then missingPackets k ps pre' else []) := by
  have hk1 := sc.hk
  have hpre' : pre' ≠ [] := by
    intro hcon
    rw [hcon] at hlen'
    simp at hlen'
  have hcnt'' : countSome (dsOf k ps pre') + countSome (psOf r parity pre') = pre'.length := by
    rw [hlen']
    exact hcnt'
  by_cases hnk : k ≤ n
  · have hflag : decide (k ≤ n) = true := by simp [hnk]
    rw [hflag] at hb1
    rw [tryRecover_recovered d1 0 _ hb1 rfl]
    have hbo : blockOf k r ps parity pre' =
        ⟨dsOf k ps pre', psOf r parity pre', k, r, true⟩ := by
      unfold blockOf
      have : decide (k ≤ pre'.length) = true := by rw [hlen']; simp; omega
      rw [this]
    refine ⟨⟨hrs1, hds1, hps1, hoth1, ?_, hcnt''⟩, ?_⟩
    · rw [hb1, if_neg hpre', hbo]
    · rw [if_neg (by omega)]
      rfl
  · have hflag : decide (k ≤ n) = false := by simp [hnk]
    rw [hflag] at hb1
    by_cases htr : n + 1 < k
    · rw [tryRecover_notEnough d1 _ _ k r hb1 (by omega)]
      have hbo : blockOf k r ps parity pre' =
          ⟨dsOf k ps pre', psOf r parity pre', k, r, false⟩ := by
        unfold blockOf
        have : decide (k ≤ pre'.length) = false := by rw [hlen']; simp; omega
        rw [this]
      refine ⟨⟨hrs1, hds1, hps1, hoth1, ?_, hcnt''⟩, by rw [if_neg (by omega)]; rfl⟩
      rw [hb1, if_neg hpre', hbo]
    · have hkeq : n + 1 = k := by omega
      have hbo : blockOf k r ps parity pre' =
          ⟨dsOf k ps pre', psOf r parity pre', k, r, true⟩ := by
        unfold blockOf
        have : decide (k ≤ pre'.length) = true := by rw [hlen']; simp; omega
        rw [this]
      by_cases hall : countSome (dsOf k ps pre') = k
      · rw [tryRecover_allData d1 _ _ k r hb1 (by omega) hall]
        refine ⟨⟨hrs1, hds1, hps1, ?_, ?_, hcnt''⟩, ?_⟩
        · intro b hb
          rw [setBlock_blocks_other _ _ _ _ hb]
          exact hoth1 b hb
        · rw [setBlock_blocks_self, if_neg hpre', hbo]
        · rw [if_pos hkeq]
          have hsum := countSome_dsOf_add_missing k ps pre'
          have hzero : (missingPackets k ps pre').length = 0 := by omega
          rw [List.eq_nil_of_length_eq_zero hzero]
          rfl
      · rw [tryRecover_trigger k r rs ps parity sc henc hplen hpL pre'
          (by omega) (by omega) d1 hrs1 hb1]
        refine ⟨⟨hrs1, hds1, hps1, ?_, ?_, hcnt''⟩, ?_⟩
        · intro b hb
          rw [setBlock_blocks_other _ _ _ _ hb]
          exact hoth1 b hb
        · rw [setBlock_blocks_self, if_neg hpre', hbo]
        · rw [if_pos hkeq]
          rfl

/-- One scenario insertion preserves the invariant, and returns exactly the
missing data packets at the insertion where the shard count reaches `k`. -/
theorem fec_step (k r : Nat) (rs : RSCodec) (ps : List Packet)
    (parity : List (List Nat)) (fecs : List FecPacket) (sc : Scenario k r rs ps)
    (henc : rs.enc (blockPadded ps) = some parity)
    (hplen : parity.length = r)
    (hpL : ∀ s ∈ parity, s.length = blockMS ps)
    (hfecs : ∀ j, j < r →
      fecs.getD j ⟨0, 0, 0, 0, []⟩ = ⟨0, k + j, k, r, parity.getD j []⟩)
    (pre : List FecEv) (ev : FecEv) (d : FecDecoder)
    (hinv : DecInv k r rs ps parity pre d) (hval : ValidFecEv k r ev)
    (hnew : ev ∉ pre) :
    DecInv k r rs ps parity (pre ++ [ev]) (applyFecEv ps fecs d ev).1 ∧
    (applyFecEv ps fecs d ev).2.getD [] =
      (if pre.length + 1 = k then missingPackets k ps (pre ++ [ev]) else []) := by
  obtain ⟨hrs, hds, hps, hother, hb0, hcount⟩ := hinv
  have hk1 := sc.hk
  have hr1 := sc.hr
  have hkr := sc.hkr
  have hk255 : k % 256 = k := Nat.mod_eq_of_lt (by omega)
  have hr255 : r % 256 = r := Nat.mod_eq_of_lt (by omega)
  have hlen'ap : (pre ++ [ev]).length = pre.length + 1 := by simp
  cases ev with
  | dataEv i =>
      have hik : i < k := hval
      have hsq : (ps.getD i default).seq = i := sc.hseq i hik
      have hblockD : (d.blocks (i / d.data_shards)).getD
          ⟨List.replicate d.data_shards none, List.replicate d.parity_shards none,
           d.data_shards % 256, d.parity_shards % 256, false⟩ =
          ⟨dsOf k ps pre, psOf r parity pre, k, r, decide (k ≤ pre.length)⟩ := by
        rw [hds, Nat.div_eq_of_lt hik, hb0]
        by_cases hpre : pre = []
        · rw [if_pos hpre, hpre]
          simp only [Option.getD_none]
          rw [hps, hk255, hr255, dsOf_nil, psOf_nil]
          have hflag0 : decide (k ≤ ([] : List FecEv).length) = false := by simp; omega
          rw [hflag0]
        · rw [if_neg hpre]
          rfl
      have happ : applyFecEv ps fecs d (FecEv.dataEv i) =
          (d.setBlock 0 ⟨dsOf k ps (pre ++ [FecEv.dataEv i]),
            psOf r parity (pre ++ [FecEv.dataEv i]), k, r,
            decide (k ≤ pre.length)⟩).tryRecover 0 := by
        show d.addDataPacket (ps.getD i default).seq (Packet.toBytes (ps.getD i default)) = _
        rw [hsq]
        unfold FecDecoder.addDataPacket
        dsimp only
        rw [hblockD]
        dsimp only
        rw [hds, Nat.div_eq_of_lt hik, Nat.mod_eq_of_lt hik, if_pos hik]
        rw [← dsOf_append_data k ps pre i hik, ← psOf_append_data r parity pre i]
      rw [happ]
      have hdsg : (dsOf k ps pre).getD i none = none := by
        rw [dsOf_getD k ps pre i hik, if_neg hnew]
      have hcnew : countSome (dsOf k ps (pre ++ [FecEv.dataEv i])) +
          countSome (psOf r parity (pre ++ [FecEv.dataEv i])) = pre.length + 1 := by
        rw [dsOf_append_data k ps pre i hik, psOf_append_data r parity pre i]
        rw [countSome_set _ i _ (by rw [dsOf_length]; exact hik) hdsg]
        omega
      have hstep := fec_step_recover k r rs ps parity sc henc hplen hpL
        (pre ++ [FecEv.dataEv i]) pre.length (by simp) hcnew
        (d.setBlock 0 _) hrs hds hps
        (fun b hb => by rw [setBlock_blocks_other _ _ _ _ hb]; exact hother b hb)
        (setBlock_blocks_self _ _ _)
      rw [hlen'ap] at *
      exact hstep
  | parEv j =>
      have hjr : j < r := hval
      have hfp := hfecs j hjr
      have hblockD : (d.blocks (0 : Nat)).getD
          ⟨List.replicate k none, List.replicate r none, k, r, false⟩ =
          ⟨dsOf k ps pre, psOf r parity pre, k, r, decide (k ≤ pre.length)⟩ := by
        rw [hb0]
        by_cases hpre : pre = []
        · rw [if_pos hpre, hpre]
          simp only [Option.getD_none]
          rw [dsOf_nil, psOf_nil]
          have : decide (k ≤ ([] : List FecEv).length) = false := by simp; omega
          rw [this]
        · rw [if_neg hpre]
          rfl
      have happ : applyFecEv ps fecs d (FecEv.parEv j) =
          (d.setBlock 0 ⟨dsOf k ps (pre ++ [FecEv.parEv j]),
            psOf r parity (pre ++ [FecEv.parEv j]), k, r,
            decide (k ≤ pre.length)⟩).tryRecover 0 := by
        show d.addFecPacket (fecs.getD j ⟨0, 0, 0, 0, []⟩) = _
        rw [hfp]
        unfold FecDecoder.addFecPacket
        dsimp only
        rw [hblockD]
        dsimp only
        have hsub : k + j - k = j := by omega
        rw [hsub, if_pos ⟨by omega, by rw [psOf_length]; omega⟩]
        rw [← dsOf_append_par k ps pre j,
          ← psOf_append_par r parity pre j hjr]
      rw [happ]
      have hpsg : (psOf r parity pre).getD j none = none := by
        unfold psOf
        rw [getD_map_range r j _ none hjr, if_neg hnew]
      have hcnew : countSome (dsOf k ps (pre ++ [FecEv.parEv j])) +
          countSome (psOf r parity (pre ++ [FecEv.parEv j])) = pre.length + 1 := by
        rw [dsOf_append_par k ps pre j, psOf_append_par r parity pre j hjr]
        rw [countSome_set _ j _ (by rw [psOf_length]; exact hjr) hpsg]
        omega
      have hstep := fec_step_recover k r rs ps parity sc henc hplen hpL
        (pre ++ [FecEv.parEv j]) pre.length (by simp) hcnew
        (d.setBlock 0 _) hrs hds hps
        (fun b hb => by rw [setBlock_blocks_other _ _ _ _ hb]; exact hother b hb)
        (setBlock_blocks_self _ _ _)
      rw [hlen'ap] at *
      exact hstep

/-- Folding the insertion events: the concatenated output is exactly the
set of data packets still missing at the insertion where the received-shard
count first reaches `k`. -/
theorem fec_run (k r : Nat) (rs : RSCodec) (ps : List Packet)
    (parity : List (List Nat)) (fecs : List FecPacket) (sc : Scenario k r rs ps)
    (henc : rs.enc (blockPadded ps) = some parity)
    (hplen : parity.length = r)
    (hpL : ∀ s ∈ parity, s.length = blockMS ps)
    (hfecs : ∀ j, j < r →
      fecs.getD j ⟨0, 0, 0, 0, []⟩ = ⟨0, k + j, k, r, parity.getD j []⟩) :
    ∀ (evs pre : List FecEv) (d : FecDecoder) (acc : List Packet),
      DecInv k r rs ps parity pre d → (pre ++ evs).Nodup →
      (∀ e ∈ pre ++ evs, ValidFecEv k r e) →
      (evs.foldl (fun a ev => ((applyFecEv ps fecs a.1 ev).1,
        a.2 ++ ((applyFecEv ps fecs a.1 ev).2.getD []))) (d, acc)).2 =
        acc ++ (if pre.length < k ∧ k ≤ pre.length + evs.length
                then missingPackets k ps ((pre ++ evs).take k) else []) := by
  intro evs
  induction evs with
  | nil =>
      intro pre d acc hinv hnd hval
      simp only [List.foldl_nil, List.length_nil, Nat.add_zero]
      rw [if_neg (by omega)]
      simp
  | cons ev rest ih =>
      intro pre d acc hinv hnd hval
      simp only [List.foldl_cons]
      have hnew : ev ∉ pre := by
        intro hmem
        exact (List.nodup_append.mp hnd).2.2 hmem (by simp)
      have hvev : ValidFecEv k r ev := hval ev (by simp)
      obtain ⟨hinv', hout⟩ := fec_step k r rs ps parity fecs sc henc hplen hpL hfecs
        pre ev d hinv hvev hnew
      have hnd' : ((pre ++ [ev]) ++ rest).Nodup := by
        rw [List.append_assoc]
        simpa using hnd
      have hval' : ∀ e ∈ (pre ++ [ev]) ++ rest, ValidFecEv k r e := by
        intro e he
        apply hval
        rw [List.append_assoc] at he
        simpa using he
      have hih := ih (pre ++ [ev]) (applyFecEv ps fecs d ev).1
        (acc ++ ((applyFecEv ps fecs d ev).2.getD [])) hinv' hnd' hval'
      rw [hih, hout]
      have hassoc : (pre ++ [ev]) ++ rest = pre ++ ev :: rest := by simp
      have hl1 : (pre ++ [ev]).length = pre.length + 1 := by simp
      rw [hassoc, hl1]
      by_cases h1 : pre.length + 1 = k
      · rw [if_pos h1, if_neg (by omega)]
        rw [if_pos (⟨by omega, by simp only [List.length_cons]; omega⟩ :
          pre.length < k ∧ k ≤ pre.length + (ev :: rest).length)]
        have htk : (pre ++ ev :: rest).take k = pre ++ [ev] := by
          rw [← hassoc, List.take_left' (by rw [hl1]; omega)]
        rw [htk]
        simp
      · rw [if_neg h1]
        by_cases h2 : pre.length < k
        · by_cases h3 : k ≤ pre.length + 1 + rest.length
          · rw [if_pos ⟨by omega, h3⟩,
              if_pos ⟨h2, by simp only [List.length_cons]; omega⟩]
            simp
          · rw [if_neg (by omega),
              if_neg (by simp only [List.length_cons]; omega)]
            simp
        · rw [if_neg (by omega), if_neg (by omega)]
          simp

/-! ## Claim C2 -/

/-- C2 (amended): for every FEC block of `k` well-formed packets (sequence
numbers `0..k-1`) encoded with `r` parity shards by a codec satisfying the
Reed–Solomon systematic-MDS contract (`k + r ≤ 256`), and any duplicate-free
sequence of at least `k` of the `k + r` shard insertions (data shards via
`add_data_packet`, parity shards via `add_fec_packet`, in any order), the
decoder returns original data packets, bit-identical, of exactly those data
shards not yet supplied at the insertion where the received-shard count
first reaches `k`; in particular every withheld data shard's packet is
among them.  (Supplying all remaining shards after withholding at most `r`
is the special case `evs.length = k + r − withheld ≥ k`.) -/
theorem fec_recovery (k r : Nat) (rs : RSCodec) (ps : List Packet)
    (hspec : RSSpec k r rs) (hk : 1 ≤ k) (hr : 1 ≤ r) (hkr : k + r ≤ 256)
    (hlen : ps.length = k) (hwf : ∀ p ∈ ps, p.Wf)
    (hseq : ∀ i, i < k → (ps.getD i default).seq = i)
    (evs : List FecEv) (hnd : evs.Nodup) (hval : ∀ e ∈ evs, ValidFecEv k r e)
    (hkle : k ≤ evs.length) :
    (runFecEvents ps (FecEncoder.encodeAll (FecEncoder.mk0 rs k r) ps).2
        (FecDecoder.mk0 rs k r) evs).2 = missingPackets k ps (evs.take k) ∧
    (∀ i, i < k → FecEv.dataEv i ∉ evs →
       ps.getD i default ∈
         (runFecEvents ps (FecEncoder.encodeAll (FecEncoder.mk0 rs k r) ps).2
           (FecDecoder.mk0 rs k r) evs).2) := by
  have sc : Scenario k r rs ps := ⟨hspec, hk, hr, hkr, hlen, hwf, hseq⟩
  obtain ⟨parity, henc, hplen, hpL⟩ := hspec.enc_shape (blockPadded ps) (blockMS ps)
    (by rw [blockPadded_length, hlen]) (blockPadded_entry_length ps)
  have hfecs_eq : (FecEncoder.encodeAll (FecEncoder.mk0 rs k r) ps).2 =
      (List.range parity.length).map fun i =>
        ⟨0, (k + i) % 256, k % 256, r % 256, parity.getD i []⟩ := by
    rw [encodeAll_spec rs k r ps hlen hk]
    exact encodeBlock_spec rs k r 0 ps parity henc
  have hfecs : ∀ j, j < r →
      (FecEncoder.encodeAll (FecEncoder.mk0 rs k r) ps).2.getD j ⟨0, 0, 0, 0, []⟩ =
        ⟨0, k + j, k, r, parity.getD j []⟩ := by
    intro j hj
    rw [hfecs_eq, getD_map_range parity.length j _ _ (by rw [hplen]; exact hj)]
    have h1 : (k + j) % 256 = k + j := Nat.mod_eq_of_lt (by omega)
    have h2 : k % 256 = k := Nat.mod_eq_of_lt (by omega)
    have h3 : r % 256 = r := Nat.mod_eq_of_lt (by omega)
    rw [h1, h2, h3]
  have hinv0 : DecInv k r rs ps parity [] (FecDecoder.mk0 rs k r) := by
    refine ⟨rfl, rfl, rfl, fun b _ => rfl, by rw [if_pos rfl]; rfl, ?_⟩
    rw [dsOf_nil, psOf_nil, countSome_replicate_none, countSome_replicate_none]
    rfl
  have hrun := fec_run k r rs ps parity
    (FecEncoder.encodeAll (FecEncoder.mk0 rs k r) ps).2 sc henc hplen hpL hfecs evs []
    (FecDecoder.mk0 rs k r) [] hinv0 (by simpa using hnd) (by simpa using hval)
  have hmain : (runFecEvents ps (FecEncoder.encodeAll (FecEncoder.mk0 rs k r) ps).2
      (FecDecoder.mk0 rs k r) evs).2 = missingPackets k ps (evs.take k) := by
    unfold runFecEvents
    rw [hrun]
    rw [if_pos ⟨by simp only [List.length_nil]; omega, by simpa using hkle⟩]
    simp
  refine ⟨hmain, ?_⟩
  intro i hik hnm
  rw [hmain]
  unfold missingPackets
  apply List.mem_map.mpr
  refine ⟨i, ?_, rfl⟩
  apply List.mem_filter.mpr
  refine ⟨List.mem_range.mpr hik, ?_⟩
  simp only [decide_eq_true_eq]
  intro hmem
  exact hnm (List.mem_of_mem_take hmem)

/-! ### A concrete single-parity MDS codec for witnesses -/

/-- Shard-wise XOR of two equal-length byte lists. -/
def xorBytes (a b : List Nat) : List Nat := List.zipWith (fun x y => x ^^^ y) a b

def xorAll : List (List Nat) → List Nat
  | [] => []
  | d :: rest => rest.foldl xorBytes d

/-- The single-parity systematic MDS codec — the Reed–Solomon code with one
parity shard over GF(2⁸): the parity shard is the XOR of the data shards,
one missing shard is the XOR of all the present ones. -/
def xorCodec : RSCodec where
  enc data := some [xorAll data]
  reconstruct mask :=
    if mask.length ≤ countSome mask + 1 then
      some (mask.map fun o => some (o.getD (xorAll (mask.filterMap id))))
    else none

theorem xorBytes_length (a b : List Nat) :
    (xorBytes a b).length = min a.length b.length := by
  simp [xorBytes]

theorem xorBytes_cancel_left : ∀ (a b : List Nat), a.length = b.length →
    xorBytes a (xorBytes a b) = b
  | [], [], _ => rfl
  | [], _ :: _, h => by simp at h
  | _ :: _, [], h => by simp at h
  | x :: xs, y :: ys, h => by
      simp only [xorBytes, List.zipWith_cons_cons]
      rw [Nat.xor_cancel_left]
      have htail := xorBytes_cancel_left xs ys (by simpa using h)
      simp only [xorBytes] at htail
      rw [htail]

theorem xorBytes_comm (a b : List Nat) : xorBytes a b = xorBytes b a := by
  unfold xorBytes
  exact List.zipWith_comm_of_comm _ (fun x y => Nat.xor_comm x y) a b

/-- The XOR codec satisfies the Reed–Solomon contract at `k = 2, r = 1`. -/
theorem rsSpec_xor : RSSpec 2 1 xorCodec := by
  constructor
  · intro data L hlen hL
    obtain ⟨a, b, rfl⟩ := List.length_eq_two.mp hlen
    have ha : a.length = L := hL a (by simp)
    have hb : b.length = L := hL b (by simp)
    refine ⟨[xorBytes a b], rfl, rfl, ?_⟩
    intro s hs
    simp only [List.mem_singleton] at hs
    subst hs
    rw [xorBytes_length, ha, hb]
    simp
  · intro data parity L mask hlen hL henc hmask hcnt
    obtain ⟨a, b, rfl⟩ := List.length_eq_two.mp hlen
    have ha : a.length = L := hL a (by simp)
    have hb : b.length = L := hL b (by simp)
    have hp : parity = [xorAll [a, b]] := by
      have := henc
      simp only [xorCodec] at this
      exact (Option.some.injEq _ _ ▸ this).symm
    have hxab : xorAll [a, b] = xorBytes a b := rfl
    subst hp
    rw [IsMaskOf] at hmask
    rw [hxab] at *
    cases hmask with
    | cons h0 htail =>
        cases htail with
        | cons h1 htail2 =>
            cases htail2 with
            | cons h2 hnil =>
                cases hnil
                rcases h0 with h0 | h0 <;> rcases h1 with h1 | h1 <;>
                  rcases h2 with h2 | h2 <;> subst h0 <;> subst h1 <;> subst h2
                · -- all three missing
                  simp [countSome, List.filterMap_cons] at hcnt
                · simp [countSome, List.filterMap_cons] at hcnt
                · simp [countSome, List.filterMap_cons] at hcnt
                · -- only data 0 missing
                  have hX : xorAll [b, xorBytes a b] = a := by
                    show List.foldl xorBytes b [xorBytes a b] = a
                    simp only [List.foldl_cons, List.foldl_nil]
                    rw [xorBytes_comm a b, xorBytes_cancel_left b a (by omega)]
                  simp [xorCodec, countSome, List.filterMap_cons, hX]
                · simp [countSome, List.filterMap_cons] at hcnt
                · -- only data 1 missing
                  have hX : xorAll [a, xorBytes a b] = b := by
                    show List.foldl xorBytes a [xorBytes a b] = b
                    simp only [List.foldl_cons, List.foldl_nil]
                    rw [xorBytes_cancel_left a b (by omega)]
                  simp [xorCodec, countSome, List.filterMap_cons, hX]
                · -- only parity missing
                  have hX : xorAll [a, b] = xorBytes a b := rfl
                  simp [xorCodec, countSome, List.filterMap_cons, hX]
                · -- nothing missing
                  simp [xorCodec, countSome, List.filterMap_cons]

/-- A concrete two-packet block for exercising the FEC pipeline. -/
def ps2w : List Packet :=
  [⟨PacketType.Video, 5, 0, [1, 2, 3]⟩, ⟨PacketType.Video, 7, 1, [9, 9]⟩]

/-- Witness for C2: with `k = 2` data shards, `r = 1` parity shard and the
single-parity codec, supplying data shard 0 and the parity shard (withholding
data shard 1) makes the decoder return exactly the withheld packet. -/
theorem fec_recovery_witness :
    (∀ e ∈ [FecEv.dataEv 0, FecEv.parEv 0], ValidFecEv 2 1 e) ∧
    [FecEv.dataEv 0, FecEv.parEv 0].Nodup ∧
    (runFecEvents ps2w (FecEncoder.encodeAll (FecEncoder.mk0 xorCodec 2 1) ps2w).2
        (FecDecoder.mk0 xorCodec 2 1) [FecEv.dataEv 0, FecEv.parEv 0]).2 =
      [⟨PacketType.Video, 7, 1, [9, 9]⟩] := by
  refine ⟨by decide, by decide, ?_⟩
  have h := fec_recovery 2 1 xorCodec ps2w rsSpec_xor (by decide) (by decide)
    (by decide) (by decide) (by decide) (by decide)
    [FecEv.dataEv 0, FecEv.parEv 0] (by decide) (by decide) (by decide)
  rw [h.1]
  rfl

/-- Counterexample for the frozen wording of C2: supplying ALL of the
shards — data 0, the parity shard, then data 1, nothing withheld — still
makes the decoder emit the packet of data shard 1, because the parity
insertion already brings the shard count to `k = 2` and reconstruction
treats the not-yet-supplied data shard 1 as lost.  The claim's "returns the
original data packets of exactly those data shards that were withheld"
predicts an empty output here. -/
theorem fec_recovery_counterexample :
    (∀ e ∈ [FecEv.dataEv 0, FecEv.parEv 0, FecEv.dataEv 1], ValidFecEv 2 1 e) ∧
    [FecEv.dataEv 0, FecEv.parEv 0, FecEv.dataEv 1].Nodup ∧
    (runFecEvents ps2w (FecEncoder.encodeAll (FecEncoder.mk0 xorCodec 2 1) ps2w).2
        (FecDecoder.mk0 xorCodec 2 1)
        [FecEv.dataEv 0, FecEv.parEv 0, FecEv.dataEv 1]).2 =
      [⟨PacketType.Video, 7, 1, [9, 9]⟩] := by
  exact ⟨by decide, by decide, by rfl⟩

end ScreenMirror
